import Mathlib

/-!
Verification of the `challengeAGMA` graph ADT (`first_challenge/Graph_ADT.py`).

The Python class `Graph` keeps an insertion-ordered dictionary
`adjacentList : vertex → list of (neighbor, weight)` together with two
immutable flags `directed` and `weighted`.  We embed vertices as `Nat`
(the source admits any hashable value; `Nat` keeps Python's int semantics,
in particular the truthiness of `0`), weights as `Option Int` (`none` is
Python's `None`), and the dictionary as an insertion-ordered association
list.  Python exceptions become an error type; `addEdge`, which mutates
`self` before it can raise, returns the mutated graph together with an
optional error so that the partial mutation on the error path is visible.
-/

namespace AGMA

/-- Python exceptions raised by the methods of `Graph`. -/
inductive GErr where
  /-- `KeyError`: dictionary lookup of a missing key. -/
  | keyError : GErr
  /-- `ValueError`: raised by `addEdge` on a weighted graph without a weight. -/
  | valueError : GErr
  /-- `TypeError`: e.g. `float + None` during Dijkstra relaxation. -/
  | typeError : GErr
  /-- `IndexError`: e.g. `path[-1]` on an empty list. -/
  | indexError : GErr
  /-- Marker for a run of the source that would not terminate. -/
  | nonTermination : GErr
deriving Repr, DecidableEq

abbrev Vertex := Nat

/-- A stored edge weight: `none` is Python's `None`. -/
abbrev Weight := Option Int

abbrev NbrList := List (Vertex × Weight)

/-- The insertion-ordered dictionary backing `adjacentList`. -/
abbrev AdjList := List (Vertex × NbrList)

/-- Dictionary lookup (`d[k]` / `k in d`): first entry with the given key. -/
def alGet : AdjList → Vertex → Option NbrList
  | [], _ => none
  | (k, l) :: rest, v => if k = v then some l else alGet rest v

/-- Append one neighbor entry to the list stored under key `k`
(`self.adjacentList[k].append(entry)`). -/
def alAppend : AdjList → Vertex → (Vertex × Weight) → AdjList
  | [], _, _ => []
  | (k, l) :: rest, v, entry =>
    if k = v then (k, l ++ [entry]) :: rest else (k, l) :: alAppend rest v entry

/-- The `Graph` class: adjacency dictionary plus the two construction flags. -/
structure Graph where
  adjacentList : AdjList
  directed : Bool
  weighted : Bool
deriving Repr, DecidableEq

/-- The keys of the adjacency dictionary, in insertion order. -/
def keysOf (g : Graph) : List Vertex := g.adjacentList.map Prod.fst

/-- `Graph.__init__(directed, weighted)`. -/
def Graph.init (directed weighted : Bool) : Graph := ⟨[], directed, weighted⟩

/-- `Graph.addVertex`: insert the vertex with an empty neighbor list if absent. -/
def Graph.addVertex (g : Graph) (v : Vertex) : Graph :=
  if alGet g.adjacentList v = none then
    { g with adjacentList := g.adjacentList ++ [(v, [])] }
  else g

/-- `Graph.addEdge`.  The source first auto-creates both endpoints, then
raises `ValueError` when the graph is weighted and no weight was given,
discards the weight when the graph is unweighted, and finally appends the
entry (and the reverse entry when undirected).  Because the vertex
insertion happens before the raise, the result is the mutated graph
paired with the optional error. -/
def Graph.addEdge (g : Graph) (src dest : Vertex) (weight : Weight) :
    Graph × Option GErr :=
  let g1 := (g.addVertex src).addVertex dest
  if g.weighted ∧ weight = none then
    (g1, some .valueError)
  else
    let w := if g.weighted then weight else none
    let g2 := { g1 with adjacentList := alAppend g1.adjacentList src (dest, w) }
    let g3 := if g.directed then g2
      else { g2 with adjacentList := alAppend g2.adjacentList dest (src, w) }
    (g3, none)

/-- `Graph.getVertices`: `list(self.adjacentList.keys())`. -/
def Graph.getVertices (g : Graph) : List Vertex := keysOf g

/-- `Graph.getNeighbors`: `self.adjacentList[vertex]`, raising `KeyError`
when the vertex is not a key. -/
def Graph.getNeighbors (g : Graph) (vertex : Vertex) : Except GErr NbrList :=
  match alGet g.adjacentList vertex with
  | none => .error .keyError
  | some l => .ok l

/-- The scan inside `getWeight`: weight of the first entry for `dest`,
`none` when the loop falls through (Python then returns `None`). -/
def scanWeight : NbrList → Vertex → Weight
  | [], _ => none
  | (n, w) :: rest, dest => if n = dest then w else scanWeight rest dest

/-- `Graph.getWeight`: iterates over `self.adjacentList[src]` (a `KeyError`
when `src` is unknown) and returns the weight of the first entry for
`dest`; falling through returns Python's `None`. -/
def Graph.getWeight (g : Graph) (src dest : Vertex) : Except GErr Weight :=
  match alGet g.adjacentList src with
  | none => .error .keyError
  | some l => .ok (scanWeight l dest)

instance {ε α : Type} [DecidableEq ε] [DecidableEq α] : DecidableEq (Except ε α) := fun a b =>
  match a, b with
  | .error e1, .error e2 =>
    if h : e1 = e2 then isTrue (by rw [h]) else
      isFalse fun hh => by cases hh; exact h rfl
  | .error _, .ok _ => isFalse fun hh => by cases hh
  | .ok _, .error _ => isFalse fun hh => by cases hh
  | .ok a1, .ok a2 =>
    if h : a1 = a2 then isTrue (by rw [h]) else
      isFalse fun hh => by cases hh; exact h rfl

/-- Computation of `getNeighbors` on a known vertex. -/
theorem getNeighbors_eq {g : Graph} {v : Vertex} {l : NbrList}
    (h : alGet g.adjacentList v = some l) : g.getNeighbors v = .ok l := by
  unfold Graph.getNeighbors
  rw [h]

/-- Inversion of a successful `getNeighbors`. -/
theorem getNeighbors_ok_inv {g : Graph} {v : Vertex} {l : NbrList}
    (h : g.getNeighbors v = .ok l) : alGet g.adjacentList v = some l := by
  unfold Graph.getNeighbors at h
  cases hget : alGet g.adjacentList v with
  | none => rw [hget] at h; exact absurd h (by simp)
  | some l' => rw [hget] at h; cases h; rfl

/-- Computation of `getWeight` on a known source. -/
theorem getWeight_eq_scan {g : Graph} {src : Vertex} {l : NbrList}
    (h : alGet g.adjacentList src = some l) (dest : Vertex) :
    g.getWeight src dest = .ok (scanWeight l dest) := by
  unfold Graph.getWeight
  rw [h]

/-- Computation of `getWeight` on an unknown source. -/
theorem getWeight_of_none {g : Graph} {src : Vertex}
    (h : alGet g.adjacentList src = none) (dest : Vertex) :
    g.getWeight src dest = .error .keyError := by
  unfold Graph.getWeight
  rw [h]

/-! ### Generic insertion-ordered dictionaries

Python dictionaries keep insertion order; assignment to an existing key
updates in place, assignment to a fresh key appends. -/

/-- `d[k]` as an `Option` (also used for `k in d`). -/
def alookup {β : Type} : List (Vertex × β) → Vertex → Option β
  | [], _ => none
  | (k, b) :: rest, v => if k = v then some b else alookup rest v

/-- `d[k] = b`: update in place, or append when the key is fresh. -/
def dset {β : Type} : List (Vertex × β) → Vertex → β → List (Vertex × β)
  | [], v, b => [(v, b)]
  | (k, b0) :: rest, v, b =>
    if k = v then (k, b) :: rest else (k, b0) :: dset rest v b

/-! ### Termination measures -/

/-- Number of graph keys not yet in `visited`; the decreasing measure of the
traversal loops. -/
def unvisited (g : Graph) (visited : List Vertex) : Nat :=
  ((keysOf g).filter fun k => k ∉ visited).length

/-- Every vertex a `dfs` predecessor map can ever mention: the start vertex
and all neighbor targets. -/
def targets (g : Graph) : List Vertex :=
  g.adjacentList.flatMap fun kv => kv.2.map Prod.fst

/-- Number of potential `dfs` discoveries not yet in the predecessor map. -/
def unkeyed (g : Graph) (s : Vertex) (path : List (Vertex × Option Vertex)) : Nat :=
  ((s :: targets g).filter fun k => alookup path k = none).length

theorem countP_lt_countP {α : Type} {p q : α → Bool} :
    ∀ (l : List α), (∀ a ∈ l, p a = true → q a = true) →
    ∀ a₀ ∈ l, p a₀ = false → q a₀ = true →
    l.countP p < l.countP q := by
  intro l
  induction l with
  | nil => intro _ a₀ h; exact absurd h (List.not_mem_nil a₀)
  | cons x xs ih =>
    intro himp a₀ hmem hp hq
    have hle : xs.countP p ≤ xs.countP q :=
      List.countP_mono_left fun a ha => himp a (List.mem_cons_of_mem _ ha)
    rcases List.mem_cons.mp hmem with rfl | hmem'
    · rw [List.countP_cons, List.countP_cons, hp, hq,
        if_neg Bool.false_ne_true, if_pos rfl]
      omega
    · have hlt := ih (fun a ha => himp a (List.mem_cons_of_mem _ ha)) a₀ hmem' hp hq
      rw [List.countP_cons, List.countP_cons]
      by_cases hx : p x = true
      · rw [hx, himp x (List.mem_cons_self x xs) hx]
        omega
      · rw [Bool.not_eq_true] at hx
        rw [hx, if_neg Bool.false_ne_true]
        split <;> omega

theorem unvisited_snoc_lt {g : Graph} {visited : List Vertex} {v : Vertex}
    (hk : v ∈ keysOf g) (hv : v ∉ visited) :
    unvisited g (visited ++ [v]) < unvisited g visited := by
  unfold unvisited
  rw [← List.countP_eq_length_filter, ← List.countP_eq_length_filter]
  apply countP_lt_countP (keysOf g)
  · intro a _ ha
    simp only [decide_eq_true_eq] at ha ⊢
    intro hmem
    exact ha (List.mem_append_left _ hmem)
  · exact hk
  · simp
  · simpa using hv

/-! ### BFS traversal (`Graph.bfs`)

The `while queue:` loop keeps the visitation list and a FIFO queue of
vertices; a dequeued vertex is expanded only when not yet visited, and its
expansion enqueues every neighbor. -/

theorem alGet_mem_keys {al : AdjList} {v : Vertex} {l : NbrList}
    (h : alGet al v = some l) : v ∈ al.map Prod.fst := by
  induction al with
  | nil => simp [alGet] at h
  | cons kv rest ih =>
    obtain ⟨k, nl⟩ := kv
    by_cases hk : k = v
    · subst hk; exact List.mem_cons_self _ _
    · rw [alGet, if_neg hk] at h
      exact List.mem_cons_of_mem _ (ih h)

def bfsLoop (g : Graph) (visited : List Vertex) (queue : List Vertex) :
    Except GErr (List Vertex) :=
  match queue with
  | [] => .ok visited
  | v :: rest =>
    if hv : v ∈ visited then bfsLoop g visited rest
    else
      match hn : alGet g.adjacentList v with
      | none => .error .keyError
      | some nbrs => bfsLoop g (visited ++ [v]) (rest ++ nbrs.map Prod.fst)
termination_by (unvisited g visited, queue.length)
decreasing_by
  · exact Prod.Lex.right _ (Nat.lt_succ_self _)
  · exact Prod.Lex.left _ _ (unvisited_snoc_lt (alGet_mem_keys ‹_›) ‹_›)

def Graph.bfs (g : Graph) (start : Vertex) : Except GErr (List Vertex) :=
  bfsLoop g [] [start]

/-! ### BFS shortest path (`Graph.bfs_shortest_path`)

The queue holds whole paths.  Expanding a dequeued path appends one
extended path per neighbor; as soon as an extension ends at `end` it is
returned.  `extendPaths` is that inner `for` loop: either all extensions
(no hit), or the first extension hitting the target. -/

def extendPaths (e : Vertex) (p : List Vertex) :
    NbrList → (List (List Vertex)) ⊕ (List Vertex)
  | [] => .inl []
  | (n, _) :: rest =>
    if n = e then .inr (p ++ [n])
    else
      match extendPaths e p rest with
      | .inl l => .inl ((p ++ [n]) :: l)
      | .inr r => .inr r

def bfsSPLoop (g : Graph) (e : Vertex) (visited : List Vertex)
    (queue : List (List Vertex)) : Except GErr (Option (List Vertex)) :=
  match queue with
  | [] => .ok none
  | p :: rest =>
    match p.getLast? with
    | none => .error .indexError
    | some v =>
      if hv : v ∈ visited then bfsSPLoop g e visited rest
      else
        match hn : alGet g.adjacentList v with
        | none => .error .keyError
        | some nbrs =>
          match extendPaths e p nbrs with
          | .inr found => .ok (some found)
          | .inl pushes => bfsSPLoop g e (visited ++ [v]) (rest ++ pushes)
termination_by (unvisited g visited, queue.length)
decreasing_by
  · exact Prod.Lex.right _ (Nat.lt_succ_self _)
  · exact Prod.Lex.left _ _ (unvisited_snoc_lt (alGet_mem_keys ‹_›) ‹_›)

def Graph.bfs_shortest_path (g : Graph) (start e : Vertex) :
    Except GErr (Option (List Vertex)) :=
  bfsSPLoop g e [] [[start]]

/-! ### DFS-based shortest path (`Graph.dfs_shortest_path`)

Same structure with a LIFO stack (`stack.pop()` takes the most recently
appended path).  The Lean list holds the Python stack top-first, so the
extensions are pushed in reverse neighbor order at the head. -/

def dfsSPLoop (g : Graph) (e : Vertex) (visited : List Vertex)
    (stack : List (List Vertex)) : Except GErr (Option (List Vertex)) :=
  match stack with
  | [] => .ok none
  | p :: rest =>
    match p.getLast? with
    | none => .error .indexError
    | some v =>
      if hv : v ∈ visited then dfsSPLoop g e visited rest
      else
        match hn : alGet g.adjacentList v with
        | none => .error .keyError
        | some nbrs =>
          match extendPaths e p nbrs with
          | .inr found => .ok (some found)
          | .inl pushes => dfsSPLoop g e (visited ++ [v]) (pushes.reverse ++ rest)
termination_by (unvisited g visited, stack.length)
decreasing_by
  · exact Prod.Lex.right _ (Nat.lt_succ_self _)
  · exact Prod.Lex.left _ _ (unvisited_snoc_lt (alGet_mem_keys ‹_›) ‹_›)

def Graph.dfs_shortest_path (g : Graph) (start e : Vertex) :
    Except GErr (Option (List Vertex)) :=
  dfsSPLoop g e [] [[start]]

/-! ### DFS reachability with exclusion (`Graph.dfs`)

The search keeps a predecessor dictionary `path` (insertion-ordered, the
start mapping to `None`) and a LIFO stack of vertices (held top-first in
the Lean list).  `dfsExpand` is the inner `for` loop of one expansion:
neighbors equal to `avoid` are skipped, fresh neighbors are recorded in
`path` and pushed (returned in Python append order). -/

def dfsExpand (avoid v : Vertex) (path : List (Vertex × Option Vertex)) :
    NbrList → (List (Vertex × Option Vertex)) × List Vertex
  | [] => (path, [])
  | (n, _) :: rest =>
    if n = avoid then dfsExpand avoid v path rest
    else if alookup path n = none then
      let r := dfsExpand avoid v (path ++ [(n, some v)]) rest
      (r.1, n :: r.2)
    else dfsExpand avoid v path rest

theorem alookup_append_none {β : Type} {xs ys : List (Vertex × β)} {k : Vertex}
    (h : alookup (xs ++ ys) k = none) : alookup xs k = none := by
  induction xs with
  | nil => rfl
  | cons p rest ih =>
    obtain ⟨k0, b0⟩ := p
    by_cases hk : k0 = k
    · rw [List.cons_append, alookup, if_pos hk] at h
      exact absurd h (by simp)
    · rw [List.cons_append, alookup, if_neg hk] at h
      rw [alookup, if_neg hk]
      exact ih h

theorem alookup_append_right_ne {β : Type} {xs ys : List (Vertex × β)} {k : Vertex}
    (hx : alookup xs k = none) (hy : k ∈ ys.map Prod.fst) :
    alookup (xs ++ ys) k ≠ none := by
  induction xs with
  | nil =>
    simp only [List.nil_append]
    induction ys with
    | nil => simp at hy
    | cons p rest ih =>
      obtain ⟨k0, b0⟩ := p
      by_cases hk : k0 = k
      · rw [alookup, if_pos hk]; simp
      · rw [alookup, if_neg hk]
        refine ih ?_
        rcases List.mem_cons.mp hy with h | h
        · exact absurd h.symm hk
        · exact h
  | cons p rest ih =>
    obtain ⟨k0, b0⟩ := p
    by_cases hk : k0 = k
    · rw [alookup, if_pos hk] at hx; exact absurd hx (by simp)
    · rw [alookup, if_neg hk] at hx
      rw [List.cons_append, alookup, if_neg hk]
      exact ih hx

/-- Everything `dfsExpand` does: it appends fresh discovery records to the
dictionary and pushes exactly their keys, all of them non-`avoid`
neighbors mapped to the expanded vertex and fresh w.r.t. the incoming
dictionary. -/
theorem dfsExpand_spec (a v : Vertex) : ∀ (nbrs : NbrList)
    (path : List (Vertex × Option Vertex)),
    ∃ es, (dfsExpand a v path nbrs).1 = path ++ es ∧
      (dfsExpand a v path nbrs).2 = es.map Prod.fst ∧
      (∀ q ∈ es, q.1 ∈ nbrs.map Prod.fst ∧ q.2 = some v ∧ q.1 ≠ a ∧
        alookup path q.1 = none) := by
  intro nbrs
  induction nbrs with
  | nil => intro path; exact ⟨[], by simp [dfsExpand]⟩
  | cons q rest ih =>
    intro path
    obtain ⟨n, w⟩ := q
    by_cases ha : n = a
    · obtain ⟨es, h1, h2, h3⟩ := ih path
      refine ⟨es, ?_, ?_, ?_⟩
      · rw [dfsExpand, if_pos ha]; exact h1
      · rw [dfsExpand, if_pos ha]; exact h2
      · intro q hq
        obtain ⟨hm, hv, hna, hfresh⟩ := h3 q hq
        exact ⟨List.mem_cons_of_mem _ hm, hv, hna, hfresh⟩
    · by_cases hf : alookup path n = none
      · obtain ⟨es, h1, h2, h3⟩ := ih (path ++ [(n, some v)])
        refine ⟨(n, some v) :: es, ?_, ?_, ?_⟩
        · rw [dfsExpand, if_neg ha, if_pos hf]
          simp only [h1, List.append_assoc, List.singleton_append]
        · rw [dfsExpand, if_neg ha, if_pos hf]
          simp only [h2, List.map_cons]
        · intro q hq
          rcases List.mem_cons.mp hq with rfl | hq
          · exact ⟨by simp, rfl, ha, hf⟩
          · obtain ⟨hm, hv, hna, hfresh⟩ := h3 q hq
            exact ⟨List.mem_cons_of_mem _ hm, hv, hna, alookup_append_none hfresh⟩
      · obtain ⟨es, h1, h2, h3⟩ := ih path
        refine ⟨es, ?_, ?_, ?_⟩
        · rw [dfsExpand, if_neg ha, if_neg hf]; exact h1
        · rw [dfsExpand, if_neg ha, if_neg hf]; exact h2
        · intro q hq
          obtain ⟨hm, hv, hna, hfresh⟩ := h3 q hq
          exact ⟨List.mem_cons_of_mem _ hm, hv, hna, hfresh⟩

theorem alGet_targets_aux {al : AdjList} {v : Vertex} {l : NbrList}
    (h : alGet al v = some l) :
    ∀ x ∈ l.map Prod.fst, x ∈ al.flatMap fun kv => kv.2.map Prod.fst := by
  induction al with
  | nil => simp [alGet] at h
  | cons kv rest ih =>
    obtain ⟨k, nl⟩ := kv
    intro x hx
    rw [List.flatMap_cons]
    by_cases hk : k = v
    · rw [alGet, if_pos hk] at h
      cases h
      exact List.mem_append_left _ hx
    · rw [alGet, if_neg hk] at h
      exact List.mem_append_right _ (ih h x hx)

theorem alGet_targets {g : Graph} {v : Vertex} {l : NbrList}
    (h : alGet g.adjacentList v = some l) :
    ∀ x ∈ l.map Prod.fst, x ∈ targets g := by
  unfold targets
  exact alGet_targets_aux h

/-- The `dfs` loop measure: each expansion either discovers nothing (and
the stack shrinks) or strictly grows the predecessor dictionary inside
the finite universe `s :: targets g`. -/
theorem dfsExpand_measure {g : Graph} {s a v : Vertex}
    {path : List (Vertex × Option Vertex)} {nbrs : NbrList}
    (hn : alGet g.adjacentList v = some nbrs) :
    ((dfsExpand a v path nbrs).1 = path ∧ (dfsExpand a v path nbrs).2 = []) ∨
    unkeyed g s (dfsExpand a v path nbrs).1 < unkeyed g s path := by
  obtain ⟨es, h1, h2, h3⟩ := dfsExpand_spec a v nbrs path
  cases es with
  | nil => exact Or.inl ⟨by simpa using h1, by simpa using h2⟩
  | cons q es' =>
    right
    rw [h1]
    unfold unkeyed
    rw [← List.countP_eq_length_filter, ← List.countP_eq_length_filter]
    obtain ⟨hm, hv, hna, hfresh⟩ := h3 q (List.mem_cons_self _ _)
    apply countP_lt_countP (s :: targets g)
    · intro k _ hk
      simp only [decide_eq_true_eq] at hk ⊢
      exact alookup_append_none hk
    · exact List.mem_cons_of_mem _ (alGet_targets hn q.1 hm)
    · simp only [decide_eq_false_iff_not]
      intro hcontra
      exact alookup_append_right_ne hfresh
        (List.mem_map_of_mem Prod.fst (List.mem_cons_self q es')) hcontra
    · simpa using hfresh

def dfsLoop (g : Graph) (s e b : Vertex)
    (path : List (Vertex × Option Vertex)) (stack : List Vertex) :
    Except GErr (List (Vertex × Option Vertex)) :=
  match stack with
  | [] => .ok path
  | v :: rest =>
    if v = e then .ok path
    else
      match hn : alGet g.adjacentList v with
      | none => .error .keyError
      | some nbrs =>
        dfsLoop g s e b (dfsExpand b v path nbrs).1
          ((dfsExpand b v path nbrs).2.reverse ++ rest)
termination_by (unkeyed g s path, stack.length)
decreasing_by
  rcases @dfsExpand_measure g s b v path nbrs hn with ⟨he1, he2⟩ | hlt
  · rw [he1, he2]
    exact Prod.Lex.right _ (by simp)
  · exact Prod.Lex.left _ _ hlt

/-- The reconstruction `while current != start: current = path[current]`
walk, producing `[end, …, start]`.  A missing key raises `KeyError`; a
`None` value makes the next iteration look up `path[None]`, also a
`KeyError`.  The fuel only guards Lean-side totality: a run that exhausts
it would cycle forever in Python. -/
def walkD (path : List (Vertex × Option Vertex)) (s : Vertex) :
    Nat → Vertex → Except GErr (List Vertex)
  | 0, _ => .error .nonTermination
  | fuel + 1, cur =>
    if cur = s then .ok [cur]
    else
      match alookup path cur with
      | none => .error .keyError
      | some none => .error .keyError
      | some (some v) => (walkD path s fuel v).map (cur :: ·)

def Graph.dfs (g : Graph) (start e avoid : Vertex) : Except GErr (List Vertex) :=
  match dfsLoop g start e avoid [(start, none)] [start] with
  | .error err => .error err
  | .ok path =>
    match alookup path e with
    | none => .ok []
    | some _ => (walkD path start (path.length + 1) e).map List.reverse

/-! ### Dijkstra (`Graph.dijkstra`)

Distances are ints or `float("inf")`: `EDist` with `none` for infinity
(distinct from `Weight`, where `none` is a missing weight).  The source
keeps the queue as a `heapq` binary heap of `[distance, vertex]` lists,
re-heapifying after every decrease-key; every pop therefore returns the
least entry in Python's list lexicographic order.  The vertices in the
queue are pairwise distinct (one initial push per key, relaxation only
rewrites in place), so that order is total on the live entries and the
heap's internal array layout is unobservable; we model the queue as the
list of entries with a pop-minimum. -/

/-- A tentative distance: `none` is `float("inf")`. -/
abbrev EDist := Option Int

/-- `<` on distances, `inf` greater than every int. -/
def ltE : EDist → EDist → Bool
  | some a, some b => a < b
  | some _, none => true
  | none, _ => false

/-- Python's `[d1, v1] < [d2, v2]` list comparison on heap entries. -/
def keyLt (x y : EDist × Vertex) : Bool :=
  ltE x.1 y.1 || (decide (x.1 = y.1) && decide (x.2 < y.2))

def minEntry : (EDist × Vertex) → List (EDist × Vertex) → (EDist × Vertex)
  | best, [] => best
  | best, x :: rest => minEntry (if keyLt x best then x else best) rest

def removeFirst : List (EDist × Vertex) → (EDist × Vertex) → List (EDist × Vertex)
  | [], _ => []
  | x :: rest, y => if x = y then rest else x :: removeFirst rest y

/-- `heapq.heappop`: the least entry and the remaining ones. -/
def popMin : List (EDist × Vertex) → Option ((EDist × Vertex) × List (EDist × Vertex))
  | [] => none
  | x :: rest =>
    let m := minEntry x rest
    some (m, removeFirst (x :: rest) m)

/-- `distances[current] + weight`: adding `None` raises `TypeError`,
anything plus infinity is infinity. -/
def infAdd (d : EDist) (w : Weight) : Except GErr EDist :=
  match w with
  | none => .error .typeError
  | some x => .ok (d.map (· + x))

/-- The decrease-key linear scan: rewrite the first queue entry holding
the vertex (the `break` makes at most one update); the following
`heapify` has no observable effect in the pop-minimum model. -/
def qUpdate : List (EDist × Vertex) → Vertex → EDist → List (EDist × Vertex)
  | [], _, _ => []
  | (d, u) :: rest, v, alt =>
    if u = v then (alt, u) :: rest else (d, u) :: qUpdate rest v alt

/-- Dictionary lookup raising `KeyError` like Python's `d[k]`. -/
def dgetE {β : Type} (m : List (Vertex × β)) (v : Vertex) : Except GErr β :=
  match alookup m v with
  | none => .error .keyError
  | some b => .ok b

structure DState where
  distances : List (Vertex × EDist)
  previous : List (Vertex × Option Vertex)
  queue : List (EDist × Vertex)
deriving Repr, DecidableEq

/-- One step of the relaxation loop, for the edge `(current, q.1)` of
weight `q.2`: `alternative = distances[current] + weight`, compared with
`distances[neighbor]`, then the distance / predecessor / queue updates. -/
def relaxStep (c : Vertex) (st : DState) (q : Vertex × Weight) : Except GErr DState :=
  match dgetE st.distances c with
  | .error err => .error err
  | .ok dc =>
    match infAdd dc q.2 with
    | .error err => .error err
    | .ok alt =>
      match dgetE st.distances q.1 with
      | .error err => .error err
      | .ok dn =>
        if ltE alt dn then
          .ok (DState.mk (dset st.distances q.1 alt) (dset st.previous q.1 (some c))
            (qUpdate st.queue q.1 alt))
        else
          .ok st

/-- The relaxation `for neighbor, weight in self.adjacentList[current]`. -/
def relaxAll (c : Vertex) (nbrs : NbrList) (st : DState) : Except GErr DState :=
  nbrs.foldlM (relaxStep c) st

/-- The reconstruction `while previous[current]:` walk.  Python truthiness:
`None` and the vertex `0` both end the loop.  The fuel only guards
Lean-side totality: exhausting it would be an infinite predecessor cycle
in Python. -/
def walkPrev (prev : List (Vertex × Option Vertex)) :
    Nat → Vertex → Except GErr (List Vertex)
  | 0, _ => .error .nonTermination
  | fuel + 1, cur =>
    match alookup prev cur with
    | none => .error .keyError
    | some none => .ok []
    | some (some v) =>
      if v = 0 then .ok []
      else (walkPrev prev fuel v).map (cur :: ·)

theorem qUpdate_length (v : Vertex) (alt : EDist) :
    ∀ queue : List (EDist × Vertex), (qUpdate queue v alt).length = queue.length := by
  intro queue
  induction queue with
  | nil => rfl
  | cons x rest ih =>
    obtain ⟨d, u⟩ := x
    by_cases hu : u = v
    · rw [qUpdate, if_pos hu]
      rfl
    · rw [qUpdate, if_neg hu, List.length_cons, List.length_cons, ih]

theorem relaxStep_queue_length {c : Vertex} {st st' : DState} {q : Vertex × Weight}
    (h : relaxStep c st q = .ok st') : st'.queue.length = st.queue.length := by
  unfold relaxStep at h
  split at h
  · exact absurd h (by simp)
  · split at h
    · exact absurd h (by simp)
    · split at h
      · exact absurd h (by simp)
      · split at h
        · cases h
          exact qUpdate_length _ _ _
        · cases h
          rfl

theorem relaxAll_queue_length {c : Vertex} :
    ∀ {nbrs : NbrList} {st st' : DState}, relaxAll c nbrs st = .ok st' →
    st'.queue.length = st.queue.length := by
  intro nbrs
  induction nbrs with
  | nil =>
    intro s0 s1 h
    rw [relaxAll, List.foldlM_nil] at h
    cases h
    rfl
  | cons q rest ih =>
    intro s0 s1 h
    rw [relaxAll, List.foldlM_cons] at h
    cases hstep : relaxStep c s0 q with
    | error err =>
      rw [hstep] at h
      exact absurd h (by simp [Bind.bind, Except.bind])
    | ok smid =>
      rw [hstep] at h
      have h2 : relaxAll c rest smid = .ok s1 := by
        rw [relaxAll]
        simpa [Bind.bind, Except.bind] using h
      rw [ih h2, relaxStep_queue_length hstep]

theorem minEntry_mem : ∀ (x : EDist × Vertex) (rest : List (EDist × Vertex)),
    minEntry x rest = x ∨ minEntry x rest ∈ rest := by
  intro x rest
  induction rest generalizing x with
  | nil => exact Or.inl rfl
  | cons y t ih =>
    rw [minEntry]
    by_cases hk : keyLt y x = true
    · rw [if_pos hk]
      rcases ih y with h | h
      · refine Or.inr ?_
        rw [h]
        exact List.mem_cons_self _ _
      · exact Or.inr (List.mem_cons_of_mem _ h)
    · rw [Bool.not_eq_true] at hk
      rw [hk]
      simp only [Bool.false_eq_true, if_false]
      rcases ih x with h | h
      · exact Or.inl h
      · exact Or.inr (List.mem_cons_of_mem _ h)

theorem removeFirst_length_of_mem :
    ∀ {queue : List (EDist × Vertex)} {y : EDist × Vertex}, y ∈ queue →
    (removeFirst queue y).length + 1 = queue.length := by
  intro queue
  induction queue with
  | nil => intro y h; exact absurd h (List.not_mem_nil y)
  | cons x rest ih =>
    intro y h
    by_cases hx : x = y
    · rw [removeFirst, if_pos hx]
      rfl
    · rw [removeFirst, if_neg hx, List.length_cons, List.length_cons]
      rcases List.mem_cons.mp h with rfl | h
      · exact absurd rfl hx
      · rw [ih h]

theorem popMin_length {queue : List (EDist × Vertex)}
    {m : EDist × Vertex} {rest : List (EDist × Vertex)}
    (h : popMin queue = some (m, rest)) : rest.length + 1 = queue.length := by
  cases queue with
  | nil => simp [popMin] at h
  | cons x t =>
    rw [popMin] at h
    cases h
    have hm : minEntry x t ∈ x :: t := by
      rcases minEntry_mem x t with h | h
      · rw [h]
        exact List.mem_cons_self _ _
      · exact List.mem_cons_of_mem _ h
    exact removeFirst_length_of_mem hm

def dijkstraLoop (g : Graph) (e : Vertex) (st : DState) :
    Except GErr (List Vertex) :=
  match hq : popMin st.queue with
  | none => .ok []
  | some (entry, rest) =>
    if entry.2 = e then walkPrev st.previous (st.previous.length + 1) entry.2
    else
      match alGet g.adjacentList entry.2 with
      | none => dijkstraLoop g e { st with queue := rest }
      | some nbrs =>
        match hr : relaxAll entry.2 nbrs { st with queue := rest } with
        | .error err => .error err
        | .ok st' => dijkstraLoop g e st'
termination_by st.queue.length
decreasing_by
  · have := popMin_length hq
    omega
  · have h1 := popMin_length hq
    have h2 := relaxAll_queue_length hr
    simp only at h2
    omega

/-- `Graph.dijkstra`: initialize every known vertex (distance `0` for
`start`, infinity otherwise, all predecessors `None`, everything pushed),
run the loop, and return `start` consed onto the reversed reconstruction
walk (`result = path[::-1]; result.insert(0, start)`). -/
def Graph.dijkstra (g : Graph) (start e : Vertex) : Except GErr (List Vertex) :=
  let distances := (keysOf g).map fun v =>
    (v, if v = start then (some 0 : EDist) else none)
  let previous : List (Vertex × Option Vertex) := (keysOf g).map fun v => (v, none)
  let queue := (keysOf g).map fun v =>
    ((if v = start then (some 0 : EDist) else none), v)
  (dijkstraLoop g e ⟨distances, previous, queue⟩).map fun path =>
    start :: path.reverse

/-! ### Semantic predicates -/

/-- Well-formed adjacency dictionary: every neighbor target is a key.
Every graph built through the ADT operations satisfies this. -/
def WF (g : Graph) : Prop :=
  ∀ p ∈ g.adjacentList, ∀ q ∈ p.2, alGet g.adjacentList q.1 ≠ none

/-- Every stored weight is present (true of weighted built graphs). -/
def WeightedWF (g : Graph) : Prop :=
  ∀ p ∈ g.adjacentList, ∀ q ∈ p.2, q.2 ≠ none

instance : DecidablePred WF := fun g => by
  unfold WF
  infer_instance

instance : DecidablePred WeightedWF := fun g => by
  unfold WeightedWF
  infer_instance

/-- There is a stored edge from `u` to `v`. -/
def edgeB (g : Graph) (u v : Vertex) : Bool :=
  match alGet g.adjacentList u with
  | none => false
  | some l => l.any fun q => decide (q.1 = v)

/-- `v` can be reached from `u` along stored edges. -/
def Reachable (g : Graph) (u v : Vertex) : Prop :=
  Relation.ReflTransGen (fun a b => edgeB g a b = true) u v

/-- `v` can be reached from `u` along stored edges never entering `a`. -/
def AvoidReach (g : Graph) (a u v : Vertex) : Prop :=
  Relation.ReflTransGen (fun x y => edgeB g x y = true ∧ y ≠ a) u v

/-- The vertex list is a chain of stored edges (`false` on the empty list,
which never denotes a path here). -/
def isPathB (g : Graph) : List Vertex → Bool
  | [] => false
  | [_] => true
  | a :: b :: rest => edgeB g a b && isPathB g (b :: rest)

/-- `p` is a path of stored edges from `s` to `e`. -/
def PathFrom (g : Graph) (s : Vertex) (p : List Vertex) (e : Vertex) : Prop :=
  p.head? = some s ∧ p.getLast? = some e ∧ isPathB g p = true

/-- Graphs reachable from a fresh `Graph(directed, weighted)` through the
mutating operations (for `addEdge` including the error outcomes, since the
Python object survives the raise). -/
inductive Built : Graph → Prop
  | init (d w : Bool) : Built (Graph.init d w)
  | addV {g : Graph} (v : Vertex) : Built g → Built (g.addVertex v)
  | addE {g : Graph} (u v : Vertex) (w : Weight) : Built g →
      Built (g.addEdge u v w).1

/-! ### Dictionary and mutation lemmas -/

theorem alGet_append {al al2 : AdjList} {v : Vertex} :
    alGet (al ++ al2) v =
      match alGet al v with
      | some l => some l
      | none => alGet al2 v := by
  induction al with
  | nil => rfl
  | cons kv rest ih =>
    obtain ⟨k, nl⟩ := kv
    by_cases hk : k = v
    · rw [List.cons_append, alGet, if_pos hk, alGet, if_pos hk]
    · rw [List.cons_append, alGet, if_neg hk, alGet, if_neg hk, ih]

theorem alGet_alAppend_self {al : AdjList} {v : Vertex} {l : NbrList}
    (h : alGet al v = some l) (en : Vertex × Weight) :
    alGet (alAppend al v en) v = some (l ++ [en]) := by
  induction al with
  | nil => simp [alGet] at h
  | cons kv rest ih =>
    obtain ⟨k, nl⟩ := kv
    by_cases hk : k = v
    · rw [alGet, if_pos hk] at h
      cases h
      rw [alAppend, if_pos hk, alGet, if_pos hk]
    · rw [alGet, if_neg hk] at h
      rw [alAppend, if_neg hk, alGet, if_neg hk]
      exact ih h

theorem alGet_alAppend_other {al : AdjList} {u v : Vertex} (hne : u ≠ v)
    (en : Vertex × Weight) : alGet (alAppend al v en) u = alGet al u := by
  induction al with
  | nil => rfl
  | cons kv rest ih =>
    obtain ⟨k, nl⟩ := kv
    by_cases hk : k = v
    · subst hk
      rw [alAppend, if_pos rfl, alGet, alGet, if_neg, if_neg]
      · exact fun h => hne h.symm
      · exact fun h => hne h.symm
    · rw [alAppend, if_neg hk]
      by_cases hu : k = u
      · rw [alGet, if_pos hu, alGet, if_pos hu]
      · rw [alGet, if_neg hu, alGet, if_neg hu, ih]

theorem alAppend_keys {al : AdjList} {v : Vertex} {en : Vertex × Weight} :
    (alAppend al v en).map Prod.fst = al.map Prod.fst := by
  induction al with
  | nil => rfl
  | cons kv rest ih =>
    obtain ⟨k, nl⟩ := kv
    by_cases hk : k = v
    · rw [alAppend, if_pos hk, List.map_cons, List.map_cons]
    · rw [alAppend, if_neg hk, List.map_cons, List.map_cons, ih]

theorem alAppend_entries {al : AdjList} {v : Vertex} {en : Vertex × Weight} :
    ∀ p ∈ alAppend al v en, ∀ q ∈ p.2, (∃ p' ∈ al, p'.1 = p.1 ∧ q ∈ p'.2) ∨ q = en := by
  induction al with
  | nil => intro p hp; exact absurd hp (List.not_mem_nil p)
  | cons kv rest ih =>
    obtain ⟨k, nl⟩ := kv
    intro p hp q hq
    by_cases hk : k = v
    · rw [alAppend, if_pos hk] at hp
      rcases List.mem_cons.mp hp with rfl | hp
      · simp only at hq
        rcases List.mem_append.mp hq with h | h
        · exact Or.inl ⟨(k, nl), List.mem_cons_self _ _, rfl, h⟩
        · exact Or.inr (List.mem_singleton.mp h)
      · exact Or.inl ⟨p, List.mem_cons_of_mem _ hp, rfl, hq⟩
    · rw [alAppend, if_neg hk] at hp
      rcases List.mem_cons.mp hp with rfl | hp
      · exact Or.inl ⟨(k, nl), List.mem_cons_self _ _, rfl, hq⟩
      · rcases ih p hp q hq with ⟨p', hp', he, hq'⟩ | h
        · exact Or.inl ⟨p', List.mem_cons_of_mem _ hp', he, hq'⟩
        · exact Or.inr h

theorem addVertex_adjacentList (g : Graph) (v : Vertex) :
    (g.addVertex v).adjacentList = g.adjacentList ∨
    ((g.addVertex v).adjacentList = g.adjacentList ++ [(v, [])] ∧
      alGet g.adjacentList v = none) := by
  unfold Graph.addVertex
  by_cases h : alGet g.adjacentList v = none
  · rw [if_pos h]
    exact Or.inr ⟨rfl, h⟩
  · rw [if_neg h]
    exact Or.inl rfl

theorem addVertex_flags (g : Graph) (v : Vertex) :
    (g.addVertex v).directed = g.directed ∧ (g.addVertex v).weighted = g.weighted := by
  unfold Graph.addVertex
  split <;> exact ⟨rfl, rfl⟩

theorem addEdge_flags (g : Graph) (u v : Vertex) (w : Weight) :
    (g.addEdge u v w).1.directed = g.directed ∧
    (g.addEdge u v w).1.weighted = g.weighted := by
  have h1 := addVertex_flags g u
  have h2 := addVertex_flags (g.addVertex u) v
  unfold Graph.addEdge
  dsimp only
  split
  · exact ⟨h2.1.trans h1.1, h2.2.trans h1.2⟩
  · split <;> exact ⟨h2.1.trans h1.1, h2.2.trans h1.2⟩

theorem alGet_addVertex_same {g : Graph} {v : Vertex} :
    alGet (g.addVertex v).adjacentList v ≠ none := by
  unfold Graph.addVertex
  by_cases h : alGet g.adjacentList v = none
  · rw [if_pos h]
    simp only [alGet_append, h]
    simp [alGet]
  · rw [if_neg h]
    exact h

theorem alGet_addVertex_mono {g : Graph} {u v : Vertex} {l : NbrList}
    (h : alGet g.adjacentList u = some l) :
    alGet (g.addVertex v).adjacentList u = some l := by
  unfold Graph.addVertex
  split
  · rw [alGet_append, h]
  · exact h

theorem alGet_addVertex_fresh {g : Graph} {u v : Vertex}
    (h : alGet g.adjacentList u = none) :
    alGet (g.addVertex v).adjacentList u =
      if u = v then some [] else none := by
  unfold Graph.addVertex
  by_cases hv : alGet g.adjacentList v = none
  · rw [if_pos hv, alGet_append, h]
    by_cases huv : u = v
    · subst huv
      simp [alGet]
    · rw [if_neg huv]
      simp only [alGet]
      rw [if_neg fun hh => huv hh.symm]
  · rw [if_neg hv]
    by_cases huv : u = v
    · subst huv
      exact absurd h hv
    · rw [if_neg huv]
      exact h

theorem alGet_none_iff {al : AdjList} {v : Vertex} :
    alGet al v = none ↔ v ∉ al.map Prod.fst := by
  constructor
  · intro h hmem
    induction al with
    | nil => exact absurd hmem (List.not_mem_nil v)
    | cons kv rest ih =>
      obtain ⟨k, nl⟩ := kv
      by_cases hk : k = v
      · rw [alGet, if_pos hk] at h
        exact absurd h (by simp)
      · rw [alGet, if_neg hk] at h
        refine ih h ?_
        rcases List.mem_cons.mp hmem with hh | hh
        · exact absurd hh.symm hk
        · exact hh
  · intro h
    cases hget : alGet al v with
    | none => rfl
    | some l => exact absurd (alGet_mem_keys hget) h

/-- `addEdge` on the error path: `ValueError` after the two vertex
insertions, no adjacency entry appended. -/
theorem addEdge_eq_err {g : Graph} {u v : Vertex} {w : Weight}
    (hc : g.weighted = true ∧ w = none) :
    g.addEdge u v w = ((g.addVertex u).addVertex v, some .valueError) := by
  unfold Graph.addEdge
  rw [if_pos hc]

theorem addEdge_eq_ok_directed {g : Graph} {u v : Vertex} {w : Weight}
    (hc : ¬(g.weighted = true ∧ w = none)) (hd : g.directed = true) :
    g.addEdge u v w =
      ({ (g.addVertex u).addVertex v with
          adjacentList := alAppend ((g.addVertex u).addVertex v).adjacentList u
            (v, if g.weighted then w else none) }, none) := by
  unfold Graph.addEdge
  rw [if_neg hc]
  dsimp only
  rw [if_pos hd]

theorem addEdge_eq_ok_undirected {g : Graph} {u v : Vertex} {w : Weight}
    (hc : ¬(g.weighted = true ∧ w = none)) (hd : g.directed = false) :
    g.addEdge u v w =
      ({ (g.addVertex u).addVertex v with
          adjacentList := alAppend
            (alAppend ((g.addVertex u).addVertex v).adjacentList u
              (v, if g.weighted then w else none)) v
            (u, if g.weighted then w else none) }, none) := by
  unfold Graph.addEdge
  rw [if_neg hc]
  dsimp only
  rw [hd]
  simp only [Bool.false_eq_true, if_false]

theorem alGet_alAppend_ne_none {al : AdjList} {x q : Vertex} {en : Vertex × Weight}
    (h : alGet al q ≠ none) : alGet (alAppend al x en) q ≠ none := by
  by_cases hq : q = x
  · subst hq
    cases hget : alGet al q with
    | none => exact absurd hget h
    | some l =>
      rw [alGet_alAppend_self hget]
      simp
  · rw [alGet_alAppend_other hq]
    exact h

theorem alGet_addVertex_ne_none {g : Graph} {x q : Vertex}
    (h : alGet g.adjacentList q ≠ none) :
    alGet (g.addVertex x).adjacentList q ≠ none := by
  cases hget : alGet g.adjacentList q with
  | none => exact absurd hget h
  | some l =>
    rw [alGet_addVertex_mono hget]
    simp

theorem addVertex_keys (g : Graph) (v : Vertex) :
    keysOf (g.addVertex v) = keysOf g ∨
    (keysOf (g.addVertex v) = keysOf g ++ [v] ∧ v ∉ keysOf g) := by
  rcases addVertex_adjacentList g v with h | ⟨h, hfresh⟩
  · exact Or.inl (by rw [keysOf, h, keysOf])
  · refine Or.inr ⟨?_, alGet_none_iff.mp hfresh⟩
    rw [keysOf, h, List.map_append, keysOf]
    rfl

theorem addVertex_nodup {g : Graph} (hn : (keysOf g).Nodup) (v : Vertex) :
    (keysOf (g.addVertex v)).Nodup := by
  rcases addVertex_keys g v with h | ⟨h, hfresh⟩
  · rw [h]; exact hn
  · rw [h]
    simpa [List.nodup_append] using ⟨hn, hfresh⟩

theorem addEdge_keys (g : Graph) (u v : Vertex) (w : Weight) :
    keysOf (g.addEdge u v w).1 = keysOf ((g.addVertex u).addVertex v) := by
  by_cases hc : g.weighted = true ∧ w = none
  · rw [addEdge_eq_err hc]
  · by_cases hd : g.directed = true
    · rw [addEdge_eq_ok_directed hc hd]
      rw [keysOf, keysOf]
      exact alAppend_keys
    · rw [Bool.not_eq_true] at hd
      rw [addEdge_eq_ok_undirected hc hd]
      rw [keysOf, keysOf]
      rw [show (alAppend (alAppend ((g.addVertex u).addVertex v).adjacentList u
          (v, if g.weighted then w else none)) v
          (u, if g.weighted then w else none)).map Prod.fst =
        (alAppend ((g.addVertex u).addVertex v).adjacentList u
          (v, if g.weighted then w else none)).map Prod.fst from alAppend_keys]
      exact alAppend_keys

theorem built_nodup {g : Graph} (hb : Built g) : (keysOf g).Nodup := by
  induction hb with
  | init d w => exact List.nodup_nil
  | addV v _ ih => exact addVertex_nodup ih v
  | addE u v w _ ih =>
    rw [addEdge_keys]
    exact addVertex_nodup (addVertex_nodup ih u) v

theorem addVertex_entries {g : Graph} {x : Vertex} :
    ∀ p ∈ (g.addVertex x).adjacentList, p ∈ g.adjacentList ∨ p = (x, []) := by
  intro p hp
  rcases addVertex_adjacentList g x with h | ⟨h, _⟩
  · rw [h] at hp
    exact Or.inl hp
  · rw [h] at hp
    rcases List.mem_append.mp hp with hp' | hp'
    · exact Or.inl hp'
    · exact Or.inr (List.mem_singleton.mp hp')

theorem addVertex_WF {g : Graph} (hw : WF g) (v : Vertex) : WF (g.addVertex v) := by
  intro p hp q hq
  rcases addVertex_entries p hp with hp' | rfl
  · exact alGet_addVertex_ne_none (hw p hp' q hq)
  · exact absurd hq (List.not_mem_nil q)

theorem built_WF {g : Graph} (hb : Built g) : WF g := by
  induction hb with
  | init d w => intro p hp; exact absurd hp (List.not_mem_nil p)
  | addV v _ ih => exact addVertex_WF ih v
  | addE u v w _ ih =>
    rename_i g _
    by_cases hc : g.weighted = true ∧ w = none
    · rw [addEdge_eq_err hc]
      exact addVertex_WF (addVertex_WF ih u) v
    · have hwf1 : WF ((g.addVertex u).addVertex v) :=
        addVertex_WF (addVertex_WF ih u) v
      have hu : alGet ((g.addVertex u).addVertex v).adjacentList u ≠ none :=
        alGet_addVertex_ne_none alGet_addVertex_same
      have hv : alGet ((g.addVertex u).addVertex v).adjacentList v ≠ none :=
        alGet_addVertex_same
      by_cases hd : g.directed = true
      · rw [addEdge_eq_ok_directed hc hd]
        intro p hp q hq
        simp only at hp ⊢
        rcases alAppend_entries p hp q hq with ⟨p', hp', _, hq'⟩ | rfl
        · exact alGet_alAppend_ne_none (hwf1 p' hp' q hq')
        · exact alGet_alAppend_ne_none hv
      · rw [Bool.not_eq_true] at hd
        rw [addEdge_eq_ok_undirected hc hd]
        intro p hp q hq
        simp only at hp ⊢
        rcases alAppend_entries p hp q hq with ⟨p', hp', _, hq'⟩ | rfl
        · rcases alAppend_entries p' hp' q hq' with ⟨p'', hp'', _, hq''⟩ | rfl
          · exact alGet_alAppend_ne_none (alGet_alAppend_ne_none (hwf1 p'' hp'' q hq''))
          · exact alGet_alAppend_ne_none (alGet_alAppend_ne_none hv)
        · exact alGet_alAppend_ne_none (alGet_alAppend_ne_none hu)

theorem built_unweighted {g : Graph} (hb : Built g) :
    g.weighted = false → ∀ p ∈ g.adjacentList, ∀ q ∈ p.2, q.2 = none := by
  induction hb with
  | init d w => intro _ p hp; exact absurd hp (List.not_mem_nil p)
  | addV v _ ih =>
    rename_i g _
    intro hw p hp q hq
    have hg : g.weighted = false := ((addVertex_flags g v).2).symm.trans hw
    rcases addVertex_entries p hp with hp' | rfl
    · exact ih hg p hp' q hq
    · exact absurd hq (List.not_mem_nil q)
  | addE u v w _ ih =>
    rename_i g _
    intro hw p hp q hq
    have hg : g.weighted = false := ((addEdge_flags g u v w).2).symm.trans hw
    have hbase : ∀ p ∈ ((g.addVertex u).addVertex v).adjacentList, ∀ q ∈ p.2,
        q.2 = none := by
      intro p hp q hq
      rcases addVertex_entries p hp with hp' | rfl
      · rcases addVertex_entries p hp' with hp'' | rfl
        · exact ih hg p hp'' q hq
        · exact absurd hq (List.not_mem_nil q)
      · exact absurd hq (List.not_mem_nil q)
    have hwnone : (if g.weighted then w else none) = (none : Weight) := by
      rw [hg]
      simp
    by_cases hc : g.weighted = true ∧ w = none
    · exact absurd hc.1 (by rw [hg]; simp)
    · by_cases hd : g.directed = true
      · rw [addEdge_eq_ok_directed hc hd] at hp
        simp only at hp
        rcases alAppend_entries p hp q hq with ⟨p', hp', _, hq'⟩ | rfl
        · exact hbase p' hp' q hq'
        · rw [hwnone]
      · rw [Bool.not_eq_true] at hd
        rw [addEdge_eq_ok_undirected hc hd] at hp
        simp only at hp
        rcases alAppend_entries p hp q hq with ⟨p', hp', _, hq'⟩ | rfl
        · rcases alAppend_entries p' hp' q hq' with ⟨p'', hp'', _, hq''⟩ | rfl
          · exact hbase p'' hp'' q hq''
          · rw [hwnone]
        · rw [hwnone]

/-! ### Helper lemmas for `getWeight` -/

theorem scanWeight_not_mem {d : Vertex} :
    ∀ {l : NbrList}, d ∉ l.map Prod.fst → scanWeight l d = none := by
  intro l
  induction l with
  | nil => intro _; rfl
  | cons q rest ih =>
    intro h
    obtain ⟨n, w⟩ := q
    by_cases hn : n = d
    · exact absurd (by rw [hn]; exact List.mem_cons_self _ _ : d ∈ ((n, w) :: rest).map Prod.fst) h
    · rw [scanWeight, if_neg hn]
      exact ih fun hw => h (List.mem_cons_of_mem _ hw)

theorem scanWeight_first {d : Vertex} {w : Weight} :
    ∀ (l₁ l₂ : NbrList), (∀ q ∈ l₁, q.1 ≠ d) →
    scanWeight (l₁ ++ (d, w) :: l₂) d = w := by
  intro l₁
  induction l₁ with
  | nil =>
    intro l₂ _
    rw [List.nil_append, scanWeight, if_pos rfl]
  | cons q rest ih =>
    intro l₂ hne
    obtain ⟨n, w'⟩ := q
    rw [List.cons_append, scanWeight,
      if_neg (hne (n, w') (List.mem_cons_self _ _))]
    exact ih l₂ fun q hq => hne q (List.mem_cons_of_mem _ hq)

theorem scanWeight_all_none {l : NbrList} {d : Vertex}
    (h : ∀ q ∈ l, q.2 = none) : scanWeight l d = none := by
  induction l with
  | nil => rfl
  | cons q rest ih =>
    obtain ⟨n, w⟩ := q
    by_cases hn : n = d
    · rw [scanWeight, if_pos hn]
      exact h (n, w) (List.mem_cons_self _ _)
    · rw [scanWeight, if_neg hn]
      exact ih fun q hq => h q (List.mem_cons_of_mem _ hq)

theorem alGet_mem_pair {al : AdjList} {v : Vertex} {l : NbrList}
    (h : alGet al v = some l) : (v, l) ∈ al := by
  induction al with
  | nil => simp [alGet] at h
  | cons kv rest ih =>
    obtain ⟨k, nl⟩ := kv
    by_cases hk : k = v
    · rw [alGet, if_pos hk] at h
      cases h
      subst hk
      exact List.mem_cons_self _ _
    · rw [alGet, if_neg hk] at h
      exact List.mem_cons_of_mem _ (ih h)

theorem mem_keys_alGet_some {g : Graph} {v : Vertex} (h : v ∈ keysOf g) :
    ∃ l, alGet g.adjacentList v = some l := by
  cases hget : alGet g.adjacentList v with
  | none => exact absurd h (alGet_none_iff.mp hget)
  | some l => exact ⟨l, rfl⟩

/-! ### Concrete example graphs -/

/-- Directed weighted scenario graph: `1→2 (1)`, `2→3 (2)`, `1→3 (10)`. -/
def exABC : Graph :=
  ((((Graph.init true true).addEdge 1 2 (some 1)).1.addEdge 2 3 (some 2)).1.addEdge
    1 3 (some 10)).1

/-- Directed weighted graph `1→0 (1)`, `0→2 (1)`: the only `1→2` path
passes through the falsy vertex `0`. -/
def exZero : Graph :=
  (((Graph.init true true).addEdge 1 0 (some 1)).1.addEdge 0 2 (some 1)).1

/-- Two isolated vertices of a weighted graph. -/
def exIso : Graph := ((Graph.init true true).addVertex 1).addVertex 2

/-- Unweighted directed chain `1→2→3`. -/
def exChain : Graph :=
  (((Graph.init true false).addEdge 1 2 none).1.addEdge 2 3 none).1

/-- A single unweighted vertex. -/
def exV1 : Graph := (Graph.init true false).addVertex 1

/-- Directed weighted edge `1→2 (5)`. -/
def exW : Graph := ((Graph.init true true).addEdge 1 2 (some 5)).1

/-- Undirected unweighted edge between `1` and `2`. -/
def exUnw : Graph := ((Graph.init false false).addEdge 1 2 none).1

theorem exABC_built : Built exABC :=
  Built.addE 1 3 (some 10)
    (Built.addE 2 3 (some 2) (Built.addE 1 2 (some 1) (Built.init true true)))

theorem exChain_built : Built exChain :=
  Built.addE 2 3 none (Built.addE 1 2 none (Built.init true false))

theorem exUnw_built : Built exUnw :=
  Built.addE 1 2 none (Built.init false false)

/-! ### Claim C4 -/

/-- C4 (counterexample): contrary to the claim, `getWeight` with an
unknown `src` raises `KeyError` instead of returning an absent value: on
the empty graph, `getWeight(0, 1)` raises. -/
theorem claim_C4_cex :
    (Graph.init false false).getWeight 0 1 = .error .keyError ∧
    (Graph.init false false).getWeight 0 1 ≠ .ok none := by
  constructor
  · rfl
  · decide

/-- C4 (amended): `getWeight(src, dest)` scans `src`'s neighbor list in
order and returns the weight of the first entry matching `dest`; when
`src` is known but no edge to `dest` exists it returns `None` as an
absent value; when `src` itself is unknown it raises `KeyError`. -/
theorem claim_C4 (g : Graph) (src dest : Vertex) :
    (src ∉ g.getVertices → g.getWeight src dest = .error .keyError) ∧
    (∀ l, g.getNeighbors src = .ok l →
      ((dest ∉ l.map Prod.fst) → g.getWeight src dest = .ok none) ∧
      (∀ l₁ w l₂, l = l₁ ++ (dest, w) :: l₂ → (∀ q ∈ l₁, q.1 ≠ dest) →
        g.getWeight src dest = .ok w)) := by
  constructor
  · intro hmem
    exact getWeight_of_none (alGet_none_iff.mpr hmem) dest
  · intro l hl
    have hsome : alGet g.adjacentList src = some l := getNeighbors_ok_inv hl
    constructor
    · intro hnm
      rw [getWeight_eq_scan hsome dest, scanWeight_not_mem hnm]
    · intro l₁ w l₂ hsplit hne
      rw [getWeight_eq_scan hsome dest, hsplit, scanWeight_first l₁ l₂ hne]

/-- C4 (witness): the amended claim at concrete inputs. -/
theorem claim_C4_witness :
    ((0 : Vertex) ∉ (Graph.init false false).getVertices ∧
      (Graph.init false false).getWeight 0 1 = .error .keyError) ∧
    (exW.getWeight 1 3 = .ok none) ∧
    (exW.getWeight 1 2 = .ok (some 5)) := by
  refine ⟨⟨by decide, (claim_C4 (Graph.init false false) 0 1).1 (by decide)⟩, ?_, ?_⟩
  · exact ((claim_C4 exW 1 3).2 [(2, some 5)] (getNeighbors_eq (by rfl))).1 (by decide)
  · exact ((claim_C4 exW 1 2).2 [(2, some 5)] (getNeighbors_eq (by rfl))).2 [] (some 5) []
      (by rfl) (by decide)

/-! ### Claim C7 -/

/-- C7: `addEdge` fails with `ValueError` exactly when the graph is
weighted and no weight is supplied; on an unweighted built graph every
stored weight is `None`, so `getWeight` returns `None` for every known
source vertex. -/
theorem claim_C7 (g : Graph) (u v : Vertex) (w : Weight) (hb : Built g) :
    ((g.addEdge u v w).2 =
      if g.weighted = true ∧ w = none then some .valueError else none) ∧
    (g.weighted = false → ∀ s ∈ g.getVertices, ∀ d,
      g.getWeight s d = .ok none) := by
  constructor
  · by_cases hc : g.weighted = true ∧ w = none
    · rw [addEdge_eq_err hc, if_pos hc]
    · rw [if_neg hc]
      by_cases hd : g.directed = true
      · rw [addEdge_eq_ok_directed hc hd]
      · rw [Bool.not_eq_true] at hd
        rw [addEdge_eq_ok_undirected hc hd]
  · intro hw s hs d
    obtain ⟨l, hl⟩ := mem_keys_alGet_some hs
    rw [getWeight_eq_scan hl d, scanWeight_all_none]
    intro q hq
    exact built_unweighted hb hw (s, l) (alGet_mem_pair hl) q hq

/-- C7 (witness): the claim at concrete inputs — a weighted graph
rejecting a missing weight, and an unweighted built graph where a
supplied weight was discarded. -/
theorem claim_C7_witness :
    (exW.addEdge 1 3 none).2 = some .valueError ∧
    (((Graph.init false false).addEdge 1 2 (some 5)).1.getWeight 1 2 = .ok none) := by
  constructor
  · have h := (claim_C7 exW 1 3 none
      (Built.addE 1 2 (some 5) (Built.init true true))).1
    rw [h]
    decide
  · exact (claim_C7 ((Graph.init false false).addEdge 1 2 (some 5)).1 0 0 none
      (Built.addE 1 2 (some 5) (Built.init false false))).2 (by decide) 1
      (by decide) 2

/-! ### Claim C8 -/

/-- C8 (counterexample): on an unweighted graph a supplied weight is not
stored, so after `addEdge(1, 2, 5)` the neighbor list of `1` holds
`(2, None)` and not the entry `(2, 5)` the claim asserts. -/
theorem claim_C8_cex :
    ((Graph.init false false).addEdge 1 2 (some 5)).2 = none ∧
    ((Graph.init false false).addEdge 1 2 (some 5)).1.getNeighbors 1 =
      .ok [(2, none)] ∧
    ((2 : Vertex), (some 5 : Weight)) ∉ [((2 : Vertex), (none : Weight))] := by
  refine ⟨rfl, rfl, ?_⟩
  decide

/-- C8 (amended): after a successful `addEdge(u, v, w)` the stored weight
is `w` on a weighted graph and `None` on an unweighted one;
`getNeighbors(u)` contains `(v, stored)`; if the graph is undirected
`getNeighbors(v)` also contains `(u, stored)`; if the graph is directed
and `u ≠ v`, `v`'s neighbor list is unchanged (empty when `v` was just
auto-created). -/
theorem claim_C8 (g : Graph) (u v : Vertex) (w : Weight) (g' : Graph)
    (h : g.addEdge u v w = (g', none)) :
    (∃ l, g'.getNeighbors u = .ok l ∧ (v, if g.weighted then w else none) ∈ l) ∧
    (g.directed = false →
      ∃ l', g'.getNeighbors v = .ok l' ∧ (u, if g.weighted then w else none) ∈ l') ∧
    (g.directed = true → u ≠ v → ∀ l', g'.getNeighbors v = .ok l' →
      (g.getNeighbors v = .ok l' ∨ (l' = [] ∧ alGet g.adjacentList v = none))) := by
  have hc : ¬(g.weighted = true ∧ w = none) := by
    intro hc
    rw [addEdge_eq_err hc] at h
    exact absurd (congrArg Prod.snd h) (by simp)
  set w' : Weight := if g.weighted then w else none with hw'
  set base : Graph := (g.addVertex u).addVertex v with hbase
  obtain ⟨lu, hlu⟩ : ∃ l, alGet base.adjacentList u = some l := by
    cases hget : alGet base.adjacentList u with
    | none => exact absurd hget (alGet_addVertex_ne_none alGet_addVertex_same)
    | some l => exact ⟨l, rfl⟩
  by_cases hd : g.directed = true
  · rw [addEdge_eq_ok_directed hc hd] at h
    have hg' : g'.adjacentList = alAppend base.adjacentList u (v, w') :=
      (congrArg (fun x => x.1.adjacentList) h).symm
    refine ⟨⟨lu ++ [(v, w')], ?_, by simp⟩, ?_, ?_⟩
    · unfold Graph.getNeighbors
      rw [hg', alGet_alAppend_self hlu]
    · intro hdf
      exact absurd (hd.symm.trans hdf) (by decide)
    · intro _ huv l' hl'
      have h0 : alGet g'.adjacentList v = some l' := getNeighbors_ok_inv hl'
      rw [hg', alGet_alAppend_other (fun hh => huv hh.symm)] at h0
      rcases Option.eq_none_or_eq_some (alGet g.adjacentList v) with hgv | ⟨lv, hgv⟩
      · have h1 : alGet (g.addVertex u).adjacentList v =
            if v = u then some [] else none := alGet_addVertex_fresh hgv
        rw [if_neg (fun hh => huv hh.symm)] at h1
        have h2 : alGet base.adjacentList v = if v = v then some [] else none :=
          alGet_addVertex_fresh h1
        rw [if_pos rfl] at h2
        rw [h2] at h0
        cases h0
        exact Or.inr ⟨rfl, hgv⟩
      · have h2 : alGet base.adjacentList v = some lv :=
          alGet_addVertex_mono (alGet_addVertex_mono hgv)
        rw [h2] at h0
        cases h0
        exact Or.inl (getNeighbors_eq hgv)
  · rw [Bool.not_eq_true] at hd
    rw [addEdge_eq_ok_undirected hc hd] at h
    have hg' : g'.adjacentList =
        alAppend (alAppend base.adjacentList u (v, w')) v (u, w') :=
      (congrArg (fun x => x.1.adjacentList) h).symm
    have hmid : alGet (alAppend base.adjacentList u (v, w')) u =
        some (lu ++ [(v, w')]) := alGet_alAppend_self hlu (v, w')
    constructor
    · by_cases huv : u = v
      · subst huv
        refine ⟨lu ++ [(u, w')] ++ [(u, w')], ?_, by simp⟩
        unfold Graph.getNeighbors
        rw [hg', alGet_alAppend_self hmid]
      · refine ⟨lu ++ [(v, w')], ?_, by simp⟩
        unfold Graph.getNeighbors
        rw [hg', alGet_alAppend_other huv, hmid]
    · refine ⟨?_, ?_⟩
      · intro _
        obtain ⟨lv, hlv⟩ : ∃ l,
            alGet (alAppend base.adjacentList u (v, w')) v = some l := by
          cases hget : alGet (alAppend base.adjacentList u (v, w')) v with
          | none =>
            exact absurd hget (alGet_alAppend_ne_none alGet_addVertex_same)
          | some l => exact ⟨l, rfl⟩
        refine ⟨lv ++ [(u, w')], ?_, by simp⟩
        unfold Graph.getNeighbors
        rw [hg', alGet_alAppend_self hlv]
      · intro hdt
        rw [hd] at hdt
        exact absurd hdt (by simp)
/-! ### Claim C9 -/

/-- C9: in every graph built through the operations, every vertex that
occurs as the source or the target of a stored edge is listed by
`getVertices` (edge insertion auto-creates missing endpoints). -/
theorem claim_C9 (g : Graph) (hb : Built g) :
    ∀ p ∈ g.adjacentList, p.1 ∈ g.getVertices ∧
      ∀ q ∈ p.2, q.1 ∈ g.getVertices := by
  intro p hp
  constructor
  · exact List.mem_map_of_mem Prod.fst hp
  · intro q hq
    by_contra hmem
    exact built_WF hb p hp q hq (alGet_none_iff.mpr hmem)

/-- C9 (witness): the invariant evaluated on a concrete built graph. -/
theorem claim_C9_witness :
    ((1 : Vertex), [((2 : Vertex), (some 1 : Weight)), (3, some 10)]) ∈
      exABC.adjacentList ∧
    (1 : Vertex) ∈ exABC.getVertices ∧ ∀ q ∈ [((2 : Vertex), (some 1 : Weight)),
      (3, some 10)], q.1 ∈ exABC.getVertices := by
  have h := claim_C9 exABC exABC_built (1, [(2, some 1), (3, some 10)]) (by decide)
  exact ⟨by decide, h.1, h.2⟩

/-! ### Claim C10 -/

/-- C10: on a weighted graph, `addEdge` without a weight raises only
after auto-creating both endpoints: the result state is exactly the two
vertex insertions, a fresh source keeps an empty neighbor list, both
endpoints are in the vertex set, and no existing neighbor list changed —
the failing call is not atomic with respect to the vertex set. -/
theorem claim_C10 (g : Graph) (u v : Vertex) (hw : g.weighted = true) :
    g.addEdge u v none = ((g.addVertex u).addVertex v, some .valueError) ∧
    (alGet g.adjacentList u = none →
      (g.addEdge u v none).1.getNeighbors u = .ok []) ∧
    u ∈ (g.addEdge u v none).1.getVertices ∧
    v ∈ (g.addEdge u v none).1.getVertices ∧
    (∀ x l, alGet g.adjacentList x = some l →
      alGet (g.addEdge u v none).1.adjacentList x = some l) := by
  have heq : g.addEdge u v none = ((g.addVertex u).addVertex v, some .valueError) :=
    addEdge_eq_err ⟨hw, rfl⟩
  rw [heq]
  refine ⟨rfl, ?_, ?_, ?_, ?_⟩
  · intro hfresh
    have h1 : alGet (g.addVertex u).adjacentList u =
        if u = u then some [] else none := alGet_addVertex_fresh hfresh
    rw [if_pos rfl] at h1
    exact getNeighbors_eq (alGet_addVertex_mono h1)
  · by_contra hmem
    exact alGet_addVertex_ne_none (g := g.addVertex u) (x := v)
      alGet_addVertex_same (alGet_none_iff.mpr hmem)
  · by_contra hmem
    exact alGet_addVertex_same (alGet_none_iff.mpr hmem)
  · intro x l hx
    exact alGet_addVertex_mono (alGet_addVertex_mono hx)

/-- C10 (witness): the error path evaluated on a concrete weighted graph. -/
theorem claim_C10_witness :
    exW.weighted = true ∧
    exW.addEdge 3 4 none = ((exW.addVertex 3).addVertex 4, some .valueError) ∧
    (exW.addEdge 3 4 none).1.getNeighbors 3 = .ok [] ∧
    (3 : Vertex) ∈ (exW.addEdge 3 4 none).1.getVertices ∧
    (4 : Vertex) ∈ (exW.addEdge 3 4 none).1.getVertices := by
  have h := claim_C10 exW 3 4 (by decide)
  exact ⟨by decide, h.1, h.2.1 (by decide), h.2.2.1, h.2.2.2.1⟩

/-- C8 (witness): the amended claim at a concrete undirected edge
insertion. -/
theorem claim_C8_witness :
    (∃ l, exUnw.getNeighbors 1 = .ok l ∧ ((2 : Vertex), (none : Weight)) ∈ l) ∧
    (∃ l', exUnw.getNeighbors 2 = .ok l' ∧ ((1 : Vertex), (none : Weight)) ∈ l') := by
  have h := claim_C8 (Graph.init false false) 1 2 none exUnw (by rfl)
  exact ⟨h.1, h.2.1 rfl⟩

/-! ### Generic `alookup` lemmas and edge characterizations -/

theorem alookup_mem {β : Type} {m : List (Vertex × β)} {k : Vertex} {b : β}
    (h : alookup m k = some b) : (k, b) ∈ m := by
  induction m with
  | nil => simp [alookup] at h
  | cons kv rest ih =>
    obtain ⟨k0, b0⟩ := kv
    by_cases hk : k0 = k
    · rw [alookup, if_pos hk] at h
      cases h
      subst hk
      exact List.mem_cons_self _ _
    · rw [alookup, if_neg hk] at h
      exact List.mem_cons_of_mem _ (ih h)

theorem alookup_mem_keys {β : Type} {m : List (Vertex × β)} {k : Vertex} :
    (∃ b, alookup m k = some b) ↔ k ∈ m.map Prod.fst := by
  constructor
  · rintro ⟨b, hb⟩
    exact List.mem_map_of_mem Prod.fst (alookup_mem hb)
  · intro hmem
    induction m with
    | nil => exact absurd hmem (List.not_mem_nil k)
    | cons kv rest ih =>
      obtain ⟨k0, b0⟩ := kv
      by_cases hk : k0 = k
      · exact ⟨b0, by rw [alookup, if_pos hk]⟩
      · obtain ⟨b, hb⟩ := ih (by
          rcases List.mem_cons.mp hmem with hh | hh
          · exact absurd hh.symm hk
          · exact hh)
        exact ⟨b, by rw [alookup, if_neg hk]; exact hb⟩

theorem alookup_append_left {β : Type} {m m2 : List (Vertex × β)} {k : Vertex}
    {b : β} (h : alookup m k = some b) : alookup (m ++ m2) k = some b := by
  induction m with
  | nil => simp [alookup] at h
  | cons kv rest ih =>
    obtain ⟨k0, b0⟩ := kv
    by_cases hk : k0 = k
    · rw [alookup, if_pos hk] at h
      rw [List.cons_append, alookup, if_pos hk]
      exact h
    · rw [alookup, if_neg hk] at h
      rw [List.cons_append, alookup, if_neg hk]
      exact ih h

theorem edgeB_intro {g : Graph} {u n : Vertex} {l : NbrList} {w : Weight}
    (hget : alGet g.adjacentList u = some l) (hmem : (n, w) ∈ l) :
    edgeB g u n = true := by
  unfold edgeB
  rw [hget]
  exact List.any_eq_true.mpr ⟨(n, w), hmem, by simp⟩

theorem edgeB_intro_fst {g : Graph} {u n : Vertex} {l : NbrList}
    (hget : alGet g.adjacentList u = some l) (hmem : n ∈ l.map Prod.fst) :
    edgeB g u n = true := by
  obtain ⟨q, hq, hq1⟩ := List.mem_map.mp hmem
  subst hq1
  exact edgeB_intro hget hq

theorem edgeB_elim {g : Graph} {u v : Vertex} (h : edgeB g u v = true) :
    ∃ l w, alGet g.adjacentList u = some l ∧ (v, w) ∈ l := by
  unfold edgeB at h
  cases hget : alGet g.adjacentList u with
  | none => rw [hget] at h; exact absurd h (by simp)
  | some l =>
    rw [hget] at h
    obtain ⟨q, hq, he⟩ := List.any_eq_true.mp h
    obtain ⟨n, w⟩ := q
    simp only [decide_eq_true_eq] at he
    subst he
    exact ⟨l, w, rfl, hq⟩

theorem edgeB_target_mem_keys {g : Graph} (hwf : WF g) {u v : Vertex}
    (h : edgeB g u v = true) : v ∈ keysOf g := by
  obtain ⟨l, w, hget, hmem⟩ := edgeB_elim h
  by_contra hvk
  exact hwf (u, l) (alGet_mem_pair hget) (v, w) hmem (alGet_none_iff.mpr hvk)

theorem avoidReach_mem_keys {g : Graph} (hwf : WF g) {a s v : Vertex}
    (hs : s ∈ keysOf g) (h : AvoidReach g a s v) : v ∈ keysOf g := by
  induction h with
  | refl => exact hs
  | tail _ hedge ih => exact edgeB_target_mem_keys hwf hedge.1

theorem reachable_mem_keys {g : Graph} (hwf : WF g) {s v : Vertex}
    (hs : s ∈ keysOf g) (h : Reachable g s v) : v ∈ keysOf g := by
  induction h with
  | refl => exact hs
  | tail _ hedge ih => exact edgeB_target_mem_keys hwf hedge

/-! ### Claim C3 -/

/-- The `avoid` vertex never enters the predecessor dictionary of the
`dfs` loop, neither as a key nor as a stored predecessor. -/
theorem dfsLoop_avoid {g : Graph} {s e a : Vertex} :
    ∀ (path : List (Vertex × Option Vertex)) (stack : List Vertex),
    (∀ kv ∈ path, kv.1 ≠ a ∧ ∀ v', kv.2 = some v' → v' ≠ a) →
    (∀ x ∈ stack, x ≠ a) →
    ∀ res, dfsLoop g s e a path stack = .ok res →
    ∀ kv ∈ res, kv.1 ≠ a ∧ ∀ v', kv.2 = some v' → v' ≠ a := by
  intro path stack
  induction path, stack using dfsLoop.induct (g := g) (e := e) (s := s) (b := a) with
  | case1 path =>
    intro hpath _ res hres
    rw [dfsLoop] at hres
    cases hres
    exact hpath
  | case2 path rest =>
    intro hpath _ res hres
    rw [dfsLoop, if_pos rfl] at hres
    cases hres
    exact hpath
  | case3 path v rest hv hget =>
    intro _ _ res hres
    rw [dfsLoop, if_neg hv, hget] at hres
    exact absurd hres (by simp)
  | case4 path v rest hv nbrs hget ih =>
    intro hpath hstack res hres
    rw [dfsLoop, if_neg hv, hget] at hres
    obtain ⟨es, h1, h2, h3⟩ := dfsExpand_spec a v nbrs path
    refine ih ?_ ?_ res hres
    · rw [h1]
      intro kv hkv
      rcases List.mem_append.mp hkv with hkv' | hkv'
      · exact hpath kv hkv'
      · obtain ⟨_, hval, hne, _⟩ := h3 kv hkv'
        refine ⟨hne, ?_⟩
        intro v' hv'
        rw [hval] at hv'
        cases hv'
        exact hstack v (List.mem_cons_self _ _)
    · intro x hx
      rcases List.mem_append.mp hx with hx' | hx'
      · rw [h2] at hx'
        obtain ⟨q, hq, hq1⟩ := List.mem_map.mp (List.mem_reverse.mp hx')
        subst hq1
        exact (h3 q hq).2.2.1
      · exact hstack x (List.mem_cons_of_mem _ hx')

/-- The reconstruction walk only emits keys of the dictionary and the
start vertex, so it never emits `avoid`. -/
theorem walkD_avoid {path : List (Vertex × Option Vertex)} {s a : Vertex}
    (hinv : ∀ kv ∈ path, kv.1 ≠ a ∧ ∀ v', kv.2 = some v' → v' ≠ a)
    (hs : s ≠ a) :
    ∀ (fuel : Nat) (cur : Vertex), cur ≠ a →
    ∀ r, walkD path s fuel cur = .ok r → a ∉ r := by
  intro fuel
  induction fuel with
  | zero =>
    intro cur _ r hr
    exact absurd hr (by simp [walkD])
  | succ n ih =>
    intro cur hcur r hr
    rw [walkD] at hr
    by_cases hcs : cur = s
    · rw [if_pos hcs] at hr
      cases hr
      intro hmem
      rcases List.mem_singleton.mp hmem with rfl
      exact hcur rfl
    · rw [if_neg hcs] at hr
      cases hlk : alookup path cur with
      | none => rw [hlk] at hr; exact absurd hr (by simp)
      | some ov =>
        rw [hlk] at hr
        cases ov with
        | none => exact absurd hr (by simp)
        | some v =>
          dsimp only at hr
          cases hr' : walkD path s n v with
          | error err => rw [hr'] at hr; exact absurd hr (by simp [Except.map])
          | ok r' =>
            rw [hr'] at hr
            simp only [Except.map, Except.ok.injEq] at hr
            subst hr
            have hv := (hinv (cur, some v) (alookup_mem hlk)).2 v rfl
            intro hmem
            rcases List.mem_cons.mp hmem with rfl | hmem'
            · exact hcur rfl
            · exact ih v hv r' hr' hmem'

/-- Everything the `dfs` loop records is reachable from `s` avoiding `a`,
and the stack stays inside the recorded keys; when every `s`→`e` path
passes through `a` the loop therefore terminates normally with `e`
unrecorded. -/
theorem dfsLoop_unreach {g : Graph} {s e a : Vertex} (hwf : WF g)
    (hs : s ∈ keysOf g) (hne : ¬AvoidReach g a s e) :
    ∀ (path : List (Vertex × Option Vertex)) (stack : List Vertex),
    (∀ kv ∈ path, AvoidReach g a s kv.1) →
    (∀ x ∈ stack, x ∈ path.map Prod.fst) →
    ∃ res, dfsLoop g s e a path stack = .ok res ∧ alookup res e = none := by
  intro path stack
  induction path, stack using dfsLoop.induct (g := g) (e := e) (s := s) (b := a) with
  | case1 path =>
    intro hpath _
    refine ⟨path, by rw [dfsLoop], ?_⟩
    cases hlk : alookup path e with
    | none => rfl
    | some b =>
      exact absurd (hpath (e, b) (alookup_mem hlk)) hne
  | case2 path rest =>
    intro hpath hstack
    have he : e ∈ path.map Prod.fst := hstack e (List.mem_cons_self _ _)
    obtain ⟨b, hb⟩ := alookup_mem_keys.mpr he
    exact absurd (hpath (e, b) (alookup_mem hb)) hne
  | case3 path v rest hv hget =>
    intro hpath hstack
    have hvreach : AvoidReach g a s v := by
      obtain ⟨b, hb⟩ := alookup_mem_keys.mpr (hstack v (List.mem_cons_self _ _))
      exact hpath (v, b) (alookup_mem hb)
    exact absurd (alGet_none_iff.mp hget)
      (fun hh => hh (avoidReach_mem_keys hwf hs hvreach))
  | case4 path v rest hv nbrs hget ih =>
    intro hpath hstack
    have hvreach : AvoidReach g a s v := by
      obtain ⟨b, hb⟩ := alookup_mem_keys.mpr (hstack v (List.mem_cons_self _ _))
      exact hpath (v, b) (alookup_mem hb)
    obtain ⟨es, h1, h2, h3⟩ := dfsExpand_spec a v nbrs path
    have hp1 : ∀ kv ∈ (dfsExpand a v path nbrs).1, AvoidReach g a s kv.1 := by
      rw [h1]
      intro kv hkv
      rcases List.mem_append.mp hkv with hkv' | hkv'
      · exact hpath kv hkv'
      · obtain ⟨hmem, _, hnea, _⟩ := h3 kv hkv'
        exact Relation.ReflTransGen.tail hvreach
          ⟨edgeB_intro_fst hget hmem, hnea⟩
    have hp2 : ∀ x ∈ (dfsExpand a v path nbrs).2.reverse ++ rest,
        x ∈ ((dfsExpand a v path nbrs).1).map Prod.fst := by
      intro x hx
      rw [h1, List.map_append]
      rcases List.mem_append.mp hx with hx' | hx'
      · rw [h2] at hx'
        exact List.mem_append_right _ (List.mem_reverse.mp hx')
      · exact List.mem_append_left _ (hstack x (List.mem_cons_of_mem _ hx'))
    obtain ⟨res, hres, hlk⟩ := ih hp1 hp2
    refine ⟨res, ?_, hlk⟩
    rw [dfsLoop, if_neg hv, hget]
    exact hres

/-- C3: `dfs(start, end, avoid)` never returns a path containing `avoid`
(for `avoid` different from both endpoints); and on a well-formed graph
with known `start`, when no `start`→`end` path avoids `avoid` (so `end`
is never discovered), it returns the empty sequence. -/
theorem claim_C3 (g : Graph) (s e a : Vertex) (has : a ≠ s) (hae : a ≠ e) :
    (∀ p, g.dfs s e a = .ok p → a ∉ p) ∧
    (WF g → s ∈ g.getVertices → ¬AvoidReach g a s e →
      g.dfs s e a = .ok []) := by
  constructor
  · intro p hp
    unfold Graph.dfs at hp
    cases hloop : dfsLoop g s e a [(s, none)] [s] with
    | error err => rw [hloop] at hp; exact absurd hp (by simp)
    | ok path =>
      rw [hloop] at hp
      dsimp only at hp
      have hinv : ∀ kv ∈ path, kv.1 ≠ a ∧ ∀ v', kv.2 = some v' → v' ≠ a := by
        refine dfsLoop_avoid [(s, none)] [s] ?_ ?_ path hloop
        · intro kv hkv
          rcases List.mem_singleton.mp hkv with rfl
          exact ⟨fun hh => has hh.symm, fun v' hv' => by cases hv'⟩
        · intro x hx
          rcases List.mem_singleton.mp hx with rfl
          exact fun hh => has hh.symm
      cases hlk : alookup path e with
      | none =>
        rw [hlk] at hp
        cases hp
        exact List.not_mem_nil a
      | some b =>
        rw [hlk] at hp
        dsimp only at hp
        cases hw : walkD path s (path.length + 1) e with
        | error err => rw [hw] at hp; exact absurd hp (by simp [Except.map])
        | ok r =>
          rw [hw] at hp
          simp only [Except.map, Except.ok.injEq] at hp
          subst hp
          have := walkD_avoid hinv (fun hh => has hh.symm) (path.length + 1) e
            (fun hh => hae hh.symm) r hw
          simpa [List.mem_reverse] using this
  · intro hwf hs hne
    obtain ⟨res, hres, hlk⟩ := dfsLoop_unreach hwf hs hne [(s, none)] [s]
      (by
        intro kv hkv
        rcases List.mem_singleton.mp hkv with rfl
        exact Relation.ReflTransGen.refl)
      (by
        intro x hx
        rcases List.mem_singleton.mp hx with rfl
        simp)
    unfold Graph.dfs
    rw [hres]
    dsimp only
    rw [hlk]

/-- C3 (witness): on the chain `1→2→3`, `dfs(1, 3, avoid 2)` returns the
empty sequence and in particular no returned path contains `2`. -/
theorem claim_C3_witness :
    exChain.dfs 1 3 2 = .ok [] ∧ (2 : Vertex) ∉ ([] : List Vertex) := by
  have h := claim_C3 exChain 1 3 2 (by decide) (by decide)
  have h2 : exChain.dfs 1 3 2 = .ok [] := by
    refine h.2 (by decide) (by decide) ?_
    intro hreach
    rcases Relation.ReflTransGen.cases_head hreach with heq | ⟨c, hd, _⟩
    · exact absurd heq (by decide)
    · obtain ⟨l, w, hget, hmem⟩ := edgeB_elim hd.1
      have hl : some l = some [((2 : Vertex), (none : Weight))] := by
        rw [← hget]
        rfl
      cases hl
      have heq2 := List.mem_singleton.mp hmem
      exact hd.2 (congrArg Prod.fst heq2)
  exact ⟨h2, h.1 [] h2⟩

/-! ### Claim C6 -/

theorem popMin_mem {queue : List (EDist × Vertex)} {m : EDist × Vertex}
    {rest : List (EDist × Vertex)} (h : popMin queue = some (m, rest)) :
    m ∈ queue := by
  cases queue with
  | nil => simp [popMin] at h
  | cons x t =>
    rw [popMin] at h
    cases h
    rcases minEntry_mem x t with hh | hh
    · rw [hh]
      exact List.mem_cons_self _ _
    · exact List.mem_cons_of_mem _ hh

theorem removeFirst_subset {y : EDist × Vertex} :
    ∀ {queue : List (EDist × Vertex)} {z : EDist × Vertex},
    z ∈ removeFirst queue y → z ∈ queue := by
  intro queue
  induction queue with
  | nil => intro z h; exact absurd h (List.not_mem_nil z)
  | cons x rest ih =>
    intro z h
    by_cases hx : x = y
    · rw [removeFirst, if_pos hx] at h
      exact List.mem_cons_of_mem _ h
    · rw [removeFirst, if_neg hx] at h
      rcases List.mem_cons.mp h with rfl | h'
      · exact List.mem_cons_self _ _
      · exact List.mem_cons_of_mem _ (ih h')

theorem popMin_rest_subset {queue : List (EDist × Vertex)} {m : EDist × Vertex}
    {rest : List (EDist × Vertex)} (h : popMin queue = some (m, rest)) :
    ∀ z ∈ rest, z ∈ queue := by
  cases queue with
  | nil => simp [popMin] at h
  | cons x t =>
    rw [popMin] at h
    cases h
    intro z hz
    exact removeFirst_subset hz

/-- When every distance is infinite, one relaxation step changes nothing. -/
theorem relaxStep_inf {g : Graph} {c : Vertex} {st : DState} {q : Vertex × Weight}
    (hdc : alookup st.distances c = some (none : EDist))
    (hdn : alookup st.distances q.1 = some (none : EDist))
    (hwq : q.2 ≠ none) :
    relaxStep c st q = .ok st := by
  obtain ⟨x, hx⟩ := Option.ne_none_iff_exists'.mp hwq
  unfold relaxStep
  rw [show dgetE st.distances c = .ok (none : EDist) by unfold dgetE; rw [hdc]]
  dsimp only
  rw [hx]
  rw [show infAdd (none : EDist) (some x) = .ok (none : EDist) from rfl]
  dsimp only
  rw [show dgetE st.distances q.1 = .ok (none : EDist) by unfold dgetE; rw [hdn]]
  rfl

/-- When every distance is infinite, the whole relaxation loop changes
nothing. -/
theorem relaxAll_inf {g : Graph} (hwf : WF g) (hww : WeightedWF g)
    {c : Vertex} {l : NbrList} (hget : alGet g.adjacentList c = some l)
    {st : DState}
    (h1 : ∀ v ∈ keysOf g, alookup st.distances v = some (none : EDist))
    (hc : c ∈ keysOf g) :
    relaxAll c l st = .ok st := by
  have hsub : ∀ q ∈ l, q.1 ∈ keysOf g ∧ q.2 ≠ none := by
    intro q hq
    constructor
    · by_contra hqk
      exact hwf (c, l) (alGet_mem_pair hget) q hq (alGet_none_iff.mpr hqk)
    · exact hww (c, l) (alGet_mem_pair hget) q hq
  clear hget
  induction l with
  | nil =>
    rw [relaxAll, List.foldlM_nil]
    rfl
  | cons q rest ih =>
    rw [relaxAll, List.foldlM_cons]
    rw [relaxStep_inf (g := g) (h1 c hc) (h1 q.1 (hsub q (List.mem_cons_self _ _)).1)
      (hsub q (List.mem_cons_self _ _)).2]
    have := ih fun q hq => hsub q (List.mem_cons_of_mem _ hq)
    rw [relaxAll] at this
    simpa [Bind.bind, Except.bind] using this

/-- With `start` unknown no distance is ever finite, nothing relaxes, and
the loop ends (by popping `e` or exhausting the queue) with an empty
reconstruction. -/
theorem dijkstraLoop_all_inf {g : Graph} {e : Vertex} (hwf : WF g)
    (hww : WeightedWF g) :
    ∀ st : DState,
    (∀ v ∈ keysOf g, alookup st.distances v = some (none : EDist)) →
    (∀ v ∈ keysOf g, alookup st.previous v = some (none : Option Vertex)) →
    (∀ en ∈ st.queue, en.2 ∈ keysOf g) →
    dijkstraLoop g e st = .ok [] := by
  intro st
  induction st using dijkstraLoop.induct (g := g) (e := e) with
  | case1 st hq =>
    intro _ _ _
    rw [dijkstraLoop, hq]
  | case2 st entry rest hq he =>
    intro h1 h2 h3
    have hek : entry.2 ∈ keysOf g := h3 entry (popMin_mem hq)
    rw [dijkstraLoop, hq]
    dsimp only
    rw [if_pos he, walkPrev, h2 entry.2 hek]
  | case3 st entry rest hq he hget ih =>
    intro h1 h2 h3
    rw [dijkstraLoop, hq]
    dsimp only
    rw [if_neg he, hget]
    exact ih h1 h2 fun en hen => h3 en (popMin_rest_subset hq en hen)
  | case4 st entry rest hq he l hget err hrel =>
    intro h1 h2 h3
    have hek : entry.2 ∈ keysOf g := h3 entry (popMin_mem hq)
    have := @relaxAll_inf g hwf hww _ _ hget { st with queue := rest } h1 hek
    rw [this] at hrel
    exact absurd hrel (by simp)
  | case5 st entry rest hq he l hget st' hrel ih =>
    intro h1 h2 h3
    have hek : entry.2 ∈ keysOf g := h3 entry (popMin_mem hq)
    have heq := @relaxAll_inf g hwf hww _ _ hget { st with queue := rest }
      h1 hek
    rw [heq] at hrel
    cases hrel
    rw [dijkstraLoop, hq]
    dsimp only
    rw [if_neg he, hget]
    dsimp only
    rw [heq]
    exact ih h1 h2 fun en hen => h3 en (popMin_rest_subset hq en hen)

theorem alookup_map_self {β : Type} (f : Vertex → β) :
    ∀ (l : List Vertex) (x : Vertex), x ∈ l →
    alookup (l.map fun v => (v, f v)) x = some (f x) := by
  intro l
  induction l with
  | nil => intro x h; exact absurd h (List.not_mem_nil x)
  | cons k rest ih =>
    intro x hx
    rw [List.map_cons]
    by_cases hk : k = x
    · subst hk
      rw [alookup, if_pos rfl]
    · rw [alookup, if_neg hk]
      exact ih x (by
        rcases List.mem_cons.mp hx with hh | hh
        · exact absurd hh.symm hk
        · exact hh)

theorem alookup_map_none {β : Type} (f : Vertex → β) :
    ∀ (l : List Vertex) (x : Vertex), x ∉ l →
    alookup (l.map fun v => (v, f v)) x = none := by
  intro l
  induction l with
  | nil => intro x _; rfl
  | cons k rest ih =>
    intro x hx
    rw [List.map_cons, alookup,
      if_neg (fun hh : k = x => hx (hh ▸ List.mem_cons_self k rest))]
    exact ih x fun hh => hx (List.mem_cons_of_mem _ hh)

/-- `dijkstra` with an unknown start never fails: every distance stays
infinite, nothing relaxes, reconstruction is empty, and the result is
`[start]`. -/
theorem dijkstra_unknown {g : Graph} (hwf : WF g) (hww : WeightedWF g)
    {s : Vertex} (hs : s ∉ g.getVertices) (e : Vertex) :
    g.dijkstra s e = .ok [s] := by
  unfold Graph.dijkstra
  show Except.map (fun path => s :: path.reverse)
    (dijkstraLoop g e
      ⟨(keysOf g).map fun v => (v, if v = s then (some 0 : EDist) else none),
       (keysOf g).map fun v => (v, (none : Option Vertex)),
       (keysOf g).map fun v => ((if v = s then (some 0 : EDist) else none), v)⟩) =
    .ok [s]
  rw [dijkstraLoop_all_inf hwf hww _ ?_ ?_ ?_]
  · rfl
  · intro x hx
    dsimp only
    have hxs : x ≠ s := fun hh => hs (hh ▸ hx)
    rw [alookup_map_self _ (keysOf g) x hx, if_neg hxs]
  · intro x hx
    dsimp only
    rw [alookup_map_self _ (keysOf g) x hx]
  · intro en hen
    dsimp only at hen
    obtain ⟨v, hv, hv2⟩ := List.mem_map.mp hen
    rw [← hv2]
    exact hv

/-- `dfs(start, end)` with `start = end` returns `[start]` immediately,
without touching the adjacency dictionary. -/
theorem dfs_start_self (g : Graph) (s a : Vertex) : g.dfs s s a = .ok [s] := by
  unfold Graph.dfs
  have hloop : dfsLoop g s s a [(s, none)] [s] = .ok [(s, none)] := by
    rw [dfsLoop, if_pos rfl]
  rw [hloop]
  dsimp only
  rw [show alookup [(s, (none : Option Vertex))] s = some none by
    rw [alookup, if_pos rfl]]
  dsimp only
  rw [walkD, if_pos rfl]
  rfl

/-- The whole-path search loops fail on the first dequeue when the start
vertex is not a key. -/
theorem bfsSPLoop_single_unknown {g : Graph} {e v : Vertex}
    (hget : alGet g.adjacentList v = none) :
    bfsSPLoop g e [] [[v]] = .error .keyError := by
  rw [bfsSPLoop]
  split
  · rename_i heq
    simp at heq
  · rename_i v2 heq
    have hv2 : v2 = v := by
      have h2 : some v = some v2 := by
        rw [← heq]
        rfl
      cases h2
      rfl
    split
    · rename_i hmem
      exact absurd hmem (List.not_mem_nil v2)
    · split
      · rfl
      · rename_i nbrs hn
        rw [hv2] at hn
        exact absurd (hget.symm.trans hn) (by simp)

theorem dfsSPLoop_single_unknown {g : Graph} {e v : Vertex}
    (hget : alGet g.adjacentList v = none) :
    dfsSPLoop g e [] [[v]] = .error .keyError := by
  rw [dfsSPLoop]
  split
  · rename_i heq
    simp at heq
  · rename_i v2 heq
    have hv2 : v2 = v := by
      have h2 : some v = some v2 := by
        rw [← heq]
        rfl
      cases h2
      rfl
    split
    · rename_i hmem
      exact absurd hmem (List.not_mem_nil v2)
    · split
      · rfl
      · rename_i nbrs hn
        rw [hv2] at hn
        exact absurd (hget.symm.trans hn) (by simp)

/-- C6 (counterexample): on graphs where `start` is unknown, `dijkstra`
does not fail: on the empty weighted graph `dijkstra(1, 2)` returns the
non-error `[1]`; likewise `dfs(5, 5, 3)` on the empty graph returns `[5]`
rather than failing. -/
theorem claim_C6_cex :
    (Graph.init true true).dijkstra 1 2 = .ok [1] ∧
    (∀ err, (Graph.init true true).dijkstra 1 2 ≠ .error err) ∧
    (Graph.init true false).dfs 5 5 3 = .ok [5] := by
  have h1 : (Graph.init true true).dijkstra 1 2 = .ok [1] :=
    dijkstra_unknown (g := Graph.init true true)
      (by intro p hp; exact absurd hp (List.not_mem_nil p))
      (by intro p hp; exact absurd hp (List.not_mem_nil p))
      (by decide) 2
  refine ⟨h1, ?_, dfs_start_self (Graph.init true false) 5 3⟩
  intro err
  rw [h1]
  simp

/-- C6 (amended): a query on an unknown vertex `v` fails with `KeyError`
for `getNeighbors`, `bfs`, `bfs_shortest_path`, `dfs_shortest_path`, and
for `dfs` whenever `start ≠ end` (with `start = end` it returns `[start]`
without touching the structure); `dijkstra` instead completes without
error and returns the single-vertex list `[start]` on any well-formed
weighted graph. -/
theorem claim_C6 (g : Graph) (v : Vertex) (hv : v ∉ g.getVertices) :
    g.getNeighbors v = .error .keyError ∧
    g.bfs v = .error .keyError ∧
    (∀ e, g.bfs_shortest_path v e = .error .keyError) ∧
    (∀ e, g.dfs_shortest_path v e = .error .keyError) ∧
    (∀ e a, v ≠ e → g.dfs v e a = .error .keyError) ∧
    (∀ a, g.dfs v v a = .ok [v]) ∧
    (WF g → WeightedWF g → ∀ e, g.dijkstra v e = .ok [v]) := by
  have hget : alGet g.adjacentList v = none := alGet_none_iff.mpr hv
  refine ⟨?_, ?_, ?_, ?_, ?_, ?_, ?_⟩
  · unfold Graph.getNeighbors
    rw [hget]
  · unfold Graph.bfs
    rw [bfsLoop, dif_neg (List.not_mem_nil v), hget]
  · intro e
    unfold Graph.bfs_shortest_path
    exact bfsSPLoop_single_unknown hget
  · intro e
    unfold Graph.dfs_shortest_path
    exact dfsSPLoop_single_unknown hget
  · intro e a hne
    unfold Graph.dfs
    rw [dfsLoop, if_neg hne, hget]
  · intro a
    exact dfs_start_self g v a
  · intro hwf hww e
    exact dijkstra_unknown hwf hww hv e

/-- C6 (witness): the amended claim evaluated on the single-vertex graph
with the unknown vertex `0`. -/
theorem claim_C6_witness :
    exV1.getNeighbors 0 = .error .keyError ∧
    exV1.bfs 0 = .error .keyError ∧
    exV1.bfs_shortest_path 0 1 = .error .keyError ∧
    exV1.dfs_shortest_path 0 1 = .error .keyError ∧
    exV1.dfs 0 1 2 = .error .keyError ∧
    exV1.dfs 0 0 2 = .ok [0] ∧
    exV1.dijkstra 0 1 = .ok [0] := by
  have h := claim_C6 exV1 0 (by decide)
  exact ⟨h.1, h.2.1, h.2.2.1 1, h.2.2.2.1 1, h.2.2.2.2.1 1 2 (by decide),
    h.2.2.2.2.2.1 2, h.2.2.2.2.2.2 (by decide) (by decide) 1⟩

/-! ### Claim C5 -/

theorem alookup_dset {β : Type} (m : List (Vertex × β)) (k : Vertex) (b : β) :
    alookup (dset m k b) k = some b ∧
    ∀ x, x ≠ k → alookup (dset m k b) x = alookup m x := by
  induction m with
  | nil =>
    refine ⟨by rw [dset, alookup, if_pos rfl], ?_⟩
    intro x hx
    show alookup [(k, b)] x = none
    rw [alookup, if_neg (fun hh => hx hh.symm)]
    rfl
  | cons kv rest ih =>
    obtain ⟨k0, b0⟩ := kv
    by_cases hk : k0 = k
    · subst hk
      rw [dset, if_pos rfl]
      refine ⟨by rw [alookup, if_pos rfl], ?_⟩
      intro x hx
      rw [alookup, if_neg (fun hh => hx hh.symm), alookup,
        if_neg (fun hh => hx hh.symm)]
    · rw [dset, if_neg hk]
      refine ⟨by rw [alookup, if_neg hk]; exact ih.1, ?_⟩
      intro x hx
      by_cases hx0 : k0 = x
      · rw [alookup, if_pos hx0, alookup, if_pos hx0]
      · rw [alookup, if_neg hx0, alookup, if_neg hx0]
        exact ih.2 x hx

theorem qUpdate_vertices {v : Vertex} {alt : EDist} :
    ∀ {queue : List (EDist × Vertex)} {en : EDist × Vertex},
    en ∈ qUpdate queue v alt → ∃ en0 ∈ queue, en.2 = en0.2 := by
  intro queue
  induction queue with
  | nil => intro en h; exact absurd h (List.not_mem_nil en)
  | cons x rest ih =>
    obtain ⟨d, u⟩ := x
    intro en h
    by_cases hu : u = v
    · rw [qUpdate, if_pos hu] at h
      rcases List.mem_cons.mp h with rfl | h'
      · exact ⟨(d, u), List.mem_cons_self _ _, rfl⟩
      · exact ⟨en, List.mem_cons_of_mem _ h', rfl⟩
    · rw [qUpdate, if_neg hu] at h
      rcases List.mem_cons.mp h with rfl | h'
      · exact ⟨(d, u), List.mem_cons_self _ _, rfl⟩
      · obtain ⟨en0, hen0, he⟩ := ih h'
        exact ⟨en0, List.mem_cons_of_mem _ hen0, he⟩

/-- The state invariant of `dijkstra` runs used for the unreachable-end
claims: distances are recorded for every key, finite distances imply
reachability from `start`, unreachable vertices keep predecessor `None`,
and the queue only holds keys. -/
def DInv (g : Graph) (s : Vertex) (st : DState) : Prop :=
  (∀ v ∈ keysOf g, ∃ d, alookup st.distances v = some d) ∧
  (∀ v d, alookup st.distances v = some (some d) → Reachable g s v) ∧
  (∀ v ∈ keysOf g, ¬Reachable g s v → alookup st.previous v = some none) ∧
  (∀ en ∈ st.queue, en.2 ∈ keysOf g)

theorem relaxStep_pres {g : Graph} {s c : Vertex} {st : DState}
    {q : Vertex × Weight} (hinv : DInv g s st) (hck : c ∈ keysOf g)
    (hqk : q.1 ∈ keysOf g) (hqw : q.2 ≠ none) (hedge : edgeB g c q.1 = true) :
    ∃ st', relaxStep c st q = .ok st' ∧ DInv g s st' := by
  obtain ⟨ha, hb, hc, hq⟩ := hinv
  obtain ⟨dc, hdc⟩ := ha c hck
  obtain ⟨dn, hdn⟩ := ha q.1 hqk
  obtain ⟨x, hx⟩ := Option.ne_none_iff_exists'.mp hqw
  unfold relaxStep
  rw [show dgetE st.distances c = .ok dc by unfold dgetE; rw [hdc]]
  dsimp only
  rw [hx]
  rw [show infAdd dc (some x) = .ok (dc.map (· + x)) from rfl]
  dsimp only
  rw [show dgetE st.distances q.1 = .ok dn by unfold dgetE; rw [hdn]]
  dsimp only
  by_cases hlt : ltE (dc.map (· + x)) dn = true
  · rw [if_pos hlt]
    refine ⟨_, rfl, ?_, ?_, ?_, ?_⟩
    · intro v hv
      by_cases hvq : v = q.1
      · subst hvq
        exact ⟨_, (alookup_dset st.distances q.1 _).1⟩
      · obtain ⟨d, hd⟩ := ha v hv
        exact ⟨d, by rw [(alookup_dset st.distances q.1 _).2 v hvq]; exact hd⟩
    · have hreach : Reachable g s q.1 := by
        cases hdc2 : dc with
        | none =>
          rw [hdc2] at hlt
          exact absurd hlt (by simp [ltE, Option.map])
        | some a =>
          refine Relation.ReflTransGen.tail (hb c a (hdc2 ▸ hdc)) hedge
      intro v d hvd
      by_cases hvq : v = q.1
      · exact hvq ▸ hreach
      · rw [(alookup_dset st.distances q.1 _).2 v hvq] at hvd
        exact hb v d hvd
    · intro v hv hvr
      by_cases hvq : v = q.1
      · subst hvq
        exact absurd (by
          cases hdc2 : dc with
          | none =>
            rw [hdc2] at hlt
            exact absurd hlt (by simp [ltE, Option.map])
          | some a =>
            exact Relation.ReflTransGen.tail (hb c a (hdc2 ▸ hdc)) hedge) hvr
      · rw [(alookup_dset st.previous q.1 _).2 v hvq]
        exact hc v hv hvr
    · intro en hen
      obtain ⟨en0, hen0, he⟩ := qUpdate_vertices hen
      rw [he]
      exact hq en0 hen0
  · rw [Bool.not_eq_true] at hlt
    rw [hlt]
    simp only [Bool.false_eq_true, if_false]
    exact ⟨st, rfl, ha, hb, hc, hq⟩

theorem relaxAll_pres {g : Graph} {s c : Vertex} (hwf : WF g)
    (hww : WeightedWF g) {l : NbrList}
    (hget : alGet g.adjacentList c = some l) (hck : c ∈ keysOf g) :
    ∀ {st : DState}, DInv g s st →
    ∃ st', relaxAll c l st = .ok st' ∧ DInv g s st' := by
  have hfacts : ∀ q ∈ l, q.1 ∈ keysOf g ∧ q.2 ≠ none ∧ edgeB g c q.1 = true := by
    intro q hq
    refine ⟨?_, hww (c, l) (alGet_mem_pair hget) q hq, edgeB_intro hget hq⟩
    by_contra hqk
    exact hwf (c, l) (alGet_mem_pair hget) q hq (alGet_none_iff.mpr hqk)
  clear hget
  induction l with
  | nil =>
    intro st hinv
    exact ⟨st, by rw [relaxAll, List.foldlM_nil]; rfl, hinv⟩
  | cons q rest ih =>
    intro st hinv
    obtain ⟨hk, hw, he⟩ := hfacts q (List.mem_cons_self _ _)
    obtain ⟨st1, hst1, hinv1⟩ := relaxStep_pres hinv hck hk hw he
    obtain ⟨st2, hst2, hinv2⟩ :=
      ih (fun q hq => hfacts q (List.mem_cons_of_mem _ hq)) hinv1
    refine ⟨st2, ?_, hinv2⟩
    rw [relaxAll, List.foldlM_cons, hst1]
    rw [relaxAll] at hst2
    simpa [Bind.bind, Except.bind] using hst2

/-- When `e` is unreachable from `s`, the loop ends with an empty
reconstruction: either the queue empties, or `e` is popped with its
predecessor still `None`. -/
theorem dijkstraLoop_unreachable {g : Graph} {s e : Vertex} (hwf : WF g)
    (hww : WeightedWF g) (hne : ¬Reachable g s e) :
    ∀ st : DState, DInv g s st → dijkstraLoop g e st = .ok [] := by
  intro st
  induction st using dijkstraLoop.induct (g := g) (e := e) with
  | case1 st hq =>
    intro _
    rw [dijkstraLoop, hq]
  | case2 st entry rest hq he =>
    intro hinv
    have hek : entry.2 ∈ keysOf g := hinv.2.2.2 entry (popMin_mem hq)
    rw [dijkstraLoop, hq]
    dsimp only
    rw [if_pos he, walkPrev, hinv.2.2.1 entry.2 hek (he ▸ hne)]
  | case3 st entry rest hq he hget ih =>
    intro hinv
    rw [dijkstraLoop, hq]
    dsimp only
    rw [if_neg he, hget]
    exact ih ⟨hinv.1, hinv.2.1, hinv.2.2.1,
      fun en hen => hinv.2.2.2 en (popMin_rest_subset hq en hen)⟩
  | case4 st entry rest hq he l hget err hrel =>
    intro hinv
    have hek : entry.2 ∈ keysOf g := hinv.2.2.2 entry (popMin_mem hq)
    obtain ⟨st', hst', _⟩ := @relaxAll_pres g s _ hwf hww _ hget hek
      { st with queue := rest } ⟨hinv.1, hinv.2.1, hinv.2.2.1,
        fun en hen => hinv.2.2.2 en (popMin_rest_subset hq en hen)⟩
    rw [hst'] at hrel
    exact absurd hrel (by simp)
  | case5 st entry rest hq he l hget st' hrel ih =>
    intro hinv
    have hek : entry.2 ∈ keysOf g := hinv.2.2.2 entry (popMin_mem hq)
    obtain ⟨st'', hst'', hinv''⟩ := @relaxAll_pres g s _ hwf hww _ hget hek
      { st with queue := rest } ⟨hinv.1, hinv.2.1, hinv.2.2.1,
        fun en hen => hinv.2.2.2 en (popMin_rest_subset hq en hen)⟩
    rw [hst''] at hrel
    cases hrel
    rw [dijkstraLoop, hq]
    dsimp only
    rw [if_neg he, hget]
    dsimp only
    rw [hst'']
    exact ih hinv''

/-- `dijkstra(start, end)` with `end` unreachable completes without
failure and returns `[start]`. -/
theorem dijkstra_unreachable {g : Graph} (hwf : WF g) (hww : WeightedWF g)
    {s e : Vertex} (hne : ¬Reachable g s e) : g.dijkstra s e = .ok [s] := by
  unfold Graph.dijkstra
  show Except.map (fun path => s :: path.reverse)
    (dijkstraLoop g e
      ⟨(keysOf g).map fun v => (v, if v = s then (some 0 : EDist) else none),
       (keysOf g).map fun v => (v, (none : Option Vertex)),
       (keysOf g).map fun v => ((if v = s then (some 0 : EDist) else none), v)⟩) =
    .ok [s]
  rw [dijkstraLoop_unreachable hwf hww hne _ ?_]
  · rfl
  refine ⟨?_, ?_, ?_, ?_⟩
  · intro v hv
    exact ⟨_, alookup_map_self _ (keysOf g) v hv⟩
  · intro v d hvd
    by_cases hv : v ∈ keysOf g
    · rw [alookup_map_self _ (keysOf g) v hv] at hvd
      by_cases hvs : v = s
      · exact hvs ▸ Relation.ReflTransGen.refl
      · rw [if_neg hvs] at hvd
        exact absurd hvd (by simp)
    · rw [alookup_map_none _ (keysOf g) v hv] at hvd
      exact absurd hvd (by simp)
  · intro v hv _
    exact alookup_map_self _ (keysOf g) v hv
  · intro en hen
    obtain ⟨u, hu, hu2⟩ := List.mem_map.mp hen
    rw [← hu2]
    exact hu

/-- C5 (counterexample): with `end` unreachable the code returns the
non-empty list `[start]`, not an empty/absent result: on two isolated
weighted vertices, `dijkstra(1, 2) = [1] ≠ []`. -/
theorem claim_C5_cex :
    exIso.dijkstra 1 2 = .ok [1] ∧
    exIso.dijkstra 1 2 ≠ .ok ([] : List Vertex) := by
  have hne : ¬Reachable exIso 1 2 := by
    intro hreach
    rcases Relation.ReflTransGen.cases_head hreach with heq | ⟨c, hd, _⟩
    · exact absurd heq (by decide)
    · obtain ⟨l, w, hget, hmem⟩ := edgeB_elim hd
      have hl : some l = some ([] : NbrList) := by
        rw [← hget]
        rfl
      cases hl
      exact absurd hmem (List.not_mem_nil _)
  have h1 : exIso.dijkstra 1 2 = .ok [1] :=
    dijkstra_unreachable (by decide) (by decide) hne
  refine ⟨h1, ?_⟩
  rw [h1]
  simp

/-- C5 (amended): for every well-formed weighted graph containing `start`
and `end`, if `end` is unreachable from `start` then `dijkstra(start,
end)` completes without a raised failure, but it returns the single-vertex
list `[start]` — a non-empty result that is not a `start`→`end` path —
rather than an empty/absent result. -/
theorem claim_C5 (g : Graph) (s e : Vertex) (hwf : WF g) (hww : WeightedWF g)
    (hs : s ∈ g.getVertices) (he : e ∈ g.getVertices)
    (hne : ¬Reachable g s e) : g.dijkstra s e = .ok [s] :=
  dijkstra_unreachable hwf hww hne

/-- C5 (witness): the amended claim on two isolated weighted vertices. -/
theorem claim_C5_witness :
    WF exIso ∧ WeightedWF exIso ∧ (1 : Vertex) ∈ exIso.getVertices ∧
    (2 : Vertex) ∈ exIso.getVertices ∧ exIso.dijkstra 1 2 = .ok [1] := by
  have hne : ¬Reachable exIso 1 2 := by
    intro hreach
    rcases Relation.ReflTransGen.cases_head hreach with heq | ⟨c, hd, _⟩
    · exact absurd heq (by decide)
    · obtain ⟨l, w, hget, hmem⟩ := edgeB_elim hd
      have hl : some l = some ([] : NbrList) := by
        rw [← hget]
        rfl
      cases hl
      exact absurd hmem (List.not_mem_nil _)
  exact ⟨by decide, by decide, by decide, by decide,
    claim_C5 exIso 1 2 (by decide) (by decide) (by decide) (by decide) hne⟩

/-! ### Claim C1 -/

/-- Fuel-indexed twin of `dijkstraLoop` (identical branch structure), used
to evaluate concrete runs by kernel reduction; `none` means out of fuel. -/
def dijkstraLoopFuel (g : Graph) (e : Vertex) :
    Nat → DState → Option (Except GErr (List Vertex))
  | 0, _ => none
  | fuel + 1, st =>
    match popMin st.queue with
    | none => some (.ok [])
    | some (entry, rest) =>
      if entry.2 = e then
        some (walkPrev st.previous (st.previous.length + 1) entry.2)
      else
        match alGet g.adjacentList entry.2 with
        | none => dijkstraLoopFuel g e fuel { st with queue := rest }
        | some nbrs =>
          match relaxAll entry.2 nbrs { st with queue := rest } with
          | .error err => some (.error err)
          | .ok st' => dijkstraLoopFuel g e fuel st'

theorem dijkstraLoopFuel_sound {g : Graph} {e : Vertex} :
    ∀ (fuel : Nat) (st : DState) (r : Except GErr (List Vertex)),
    dijkstraLoopFuel g e fuel st = some r → dijkstraLoop g e st = r := by
  intro fuel
  induction fuel with
  | zero =>
    intro st r h
    exact absurd h (by simp [dijkstraLoopFuel])
  | succ n ih =>
    intro st r h
    rw [dijkstraLoopFuel] at h
    cases hq : popMin st.queue with
    | none =>
      rw [hq] at h
      dsimp only at h
      cases h
      rw [dijkstraLoop, hq]
    | some pr =>
      obtain ⟨entry, rest⟩ := pr
      rw [hq] at h
      dsimp only at h
      by_cases he : entry.2 = e
      · rw [if_pos he] at h
        cases h
        rw [dijkstraLoop, hq]
        dsimp only
        rw [if_pos he]
      · rw [if_neg he] at h
        cases hget : alGet g.adjacentList entry.2 with
        | none =>
          rw [hget] at h
          dsimp only at h
          rw [dijkstraLoop, hq]
          dsimp only
          rw [if_neg he, hget]
          exact ih _ _ h
        | some nbrs =>
          rw [hget] at h
          dsimp only at h
          cases hrel : relaxAll entry.2 nbrs { st with queue := rest } with
          | error err =>
            rw [hrel] at h
            dsimp only at h
            cases h
            rw [dijkstraLoop, hq]
            dsimp only
            rw [if_neg he, hget]
            dsimp only
            rw [hrel]
          | ok st' =>
            rw [hrel] at h
            dsimp only at h
            rw [dijkstraLoop, hq]
            dsimp only
            rw [if_neg he, hget]
            dsimp only
            rw [hrel]
            exact ih _ _ h

/-- Run `dijkstra` through the fuel twin. -/
theorem dijkstra_eq_of_fuel {g : Graph} {s e : Vertex} {fuel : Nat}
    {r : Except GErr (List Vertex)}
    (h : dijkstraLoopFuel g e fuel
      ⟨(keysOf g).map fun v => (v, if v = s then (some 0 : EDist) else none),
       (keysOf g).map fun v => (v, (none : Option Vertex)),
       (keysOf g).map fun v => ((if v = s then (some 0 : EDist) else none), v)⟩ =
      some r) :
    g.dijkstra s e = Except.map (fun path => s :: path.reverse) r := by
  unfold Graph.dijkstra
  show Except.map (fun path => s :: path.reverse)
    (dijkstraLoop g e
      ⟨(keysOf g).map fun v => (v, if v = s then (some 0 : EDist) else none),
       (keysOf g).map fun v => (v, (none : Option Vertex)),
       (keysOf g).map fun v => ((if v = s then (some 0 : EDist) else none), v)⟩) =
    Except.map (fun path => s :: path.reverse) r
  rw [dijkstraLoopFuel_sound fuel _ r h]

/-- C1: the scenario holds — on the graph `1→2 (1)`, `2→3 (2)`, `1→3 (10)`
`dijkstra(1, 3)` returns `[1, 2, 3]` — but the general optimality claim is
broken by the reconstruction loop `while previous[current]:`, which treats
the falsy vertex `0` as "no predecessor": on `1→0 (1)`, `0→2 (1)` the
vertex `2` is reachable via the path `[1, 0, 2]`, yet `dijkstra(1, 2)`
returns `[1]`, which is not a `1`→`2` path at all. -/
theorem claim_C1 :
    exABC.dijkstra 1 3 = .ok [1, 2, 3] ∧
    PathFrom exZero 1 [1, 0, 2] 2 ∧
    exZero.dijkstra 1 2 = .ok [1] ∧
    ¬PathFrom exZero 1 [1] 2 := by
  refine ⟨?_, ?_, ?_, ?_⟩
  · have h := @dijkstra_eq_of_fuel exABC 1 3 10 (.ok [3, 2]) (by decide)
    rw [h]
    rfl
  · refine ⟨rfl, rfl, by decide⟩
  · have h := @dijkstra_eq_of_fuel exZero 1 2 10 (.ok []) (by decide)
    rw [h]
    rfl
  · intro hp
    exact absurd hp.2.1 (by decide)

/-! ### Claim C2: path lemmas -/

theorem head_some_eq_cons {R : List Vertex} {s : Vertex}
    (h : R.head? = some s) : R = s :: R.tail := by
  cases R with
  | nil => simp at h
  | cons a t =>
    simp only [List.head?_cons, Option.some.injEq] at h
    rw [h]
    rfl

theorem getLast_of_ne_nil {p : List Vertex} (h : p ≠ []) :
    ∃ x, p.getLast? = some x := by
  cases hp : p.getLast? with
  | none => exact absurd (List.getLast?_eq_none_iff.mp hp) h
  | some x => exact ⟨x, rfl⟩

theorem head_append_left {A B : List Vertex} (h : A ≠ []) :
    (A ++ B).head? = A.head? := by
  cases A with
  | nil => exact absurd rfl h
  | cons a t => rfl

theorem isPathB_snoc {g : Graph} :
    ∀ {p : List Vertex} {v n : Vertex}, isPathB g p = true →
    p.getLast? = some v → edgeB g v n = true → isPathB g (p ++ [n]) = true := by
  intro p
  induction p with
  | nil => intro v n h; simp [isPathB] at h
  | cons a t ih =>
    intro v n hp hl he
    cases t with
    | nil =>
      simp only [List.getLast?_singleton, Option.some.injEq] at hl
      show isPathB g (a :: n :: []) = true
      rw [isPathB, Bool.and_eq_true]
      refine ⟨?_, rfl⟩
      rw [hl]
      exact he
    | cons b t' =>
      rw [isPathB, Bool.and_eq_true] at hp
      have hl' : (b :: t').getLast? = some v := by
        rw [← hl]
        rfl
      show isPathB g (a :: ((b :: t') ++ [n])) = true
      rw [show a :: ((b :: t') ++ [n]) = a :: b :: (t' ++ [n]) from rfl]
      rw [isPathB, Bool.and_eq_true]
      exact ⟨hp.1, ih hp.2 hl' he⟩

theorem isPathB_append_left {g : Graph} :
    ∀ (A B : List Vertex), isPathB g (A ++ B) = true → A ≠ [] →
    isPathB g A = true := by
  intro A
  induction A with
  | nil => intro B _ h; exact absurd rfl h
  | cons a t ih =>
    intro B hp _
    cases t with
    | nil => rfl
    | cons b t' =>
      rw [show (a :: b :: t') ++ B = a :: b :: (t' ++ B) from rfl, isPathB,
        Bool.and_eq_true] at hp
      rw [isPathB, Bool.and_eq_true]
      exact ⟨hp.1, ih B hp.2 (by simp)⟩

theorem isPathB_mid_edge {g : Graph} :
    ∀ (A : List Vertex) (u n : Vertex) (B : List Vertex),
    isPathB g (A ++ n :: B) = true → A.getLast? = some u →
    edgeB g u n = true := by
  intro A
  induction A with
  | nil => intro u n B _ hl; simp at hl
  | cons a t ih =>
    intro u n B hp hl
    cases t with
    | nil =>
      simp only [List.getLast?_singleton, Option.some.injEq] at hl
      rw [show [a] ++ n :: B = a :: n :: B from rfl, isPathB,
        Bool.and_eq_true] at hp
      rw [← hl]
      exact hp.1
    | cons b t' =>
      rw [show (a :: b :: t') ++ n :: B = a :: b :: (t' ++ n :: B) from rfl,
        isPathB, Bool.and_eq_true] at hp
      have hl' : (b :: t').getLast? = some u := by
        rw [← hl]
        rfl
      exact ih u n B hp.2 hl'

theorem first_split {a : Vertex} :
    ∀ {l : List Vertex}, a ∈ l → ∃ A B, l = A ++ a :: B ∧ a ∉ A := by
  intro l
  induction l with
  | nil => intro h; exact absurd h (List.not_mem_nil a)
  | cons x t ih =>
    intro h
    by_cases hx : x = a
    · subst hx
      exact ⟨[], t, rfl, List.not_mem_nil x⟩
    · rcases List.mem_cons.mp h with rfl | h'
      · exact absurd rfl hx
      · obtain ⟨A, B, hAB, hA⟩ := ih h'
        refine ⟨x :: A, B, by rw [hAB]; rfl, ?_⟩
        intro hmem
        rcases List.mem_cons.mp hmem with rfl | hmem'
        · exact hx rfl
        · exact hA hmem'

/-- Truncating a valid `s`→`e` path at the first occurrence of `e`. -/
theorem firstHit {g : Graph} {s e : Vertex} (hse : s ≠ e) :
    ∀ {Q : List Vertex}, Q.head? = some s → Q.getLast? = some e →
    isPathB g Q = true →
    ∃ Q₁, (Q₁ ++ [e]).head? = some s ∧ isPathB g (Q₁ ++ [e]) = true ∧
      e ∉ Q₁ ∧ Q₁ ≠ [] ∧ (Q₁ ++ [e]).length ≤ Q.length := by
  intro Q hh hl hp
  have hmem : e ∈ Q := by
    have hne : Q ≠ [] := by
      intro hq
      rw [hq] at hh
      simp at hh
    rw [show Q = Q.dropLast ++ [Q.getLast hne] from (List.dropLast_append_getLast hne).symm]
    have : Q.getLast hne = e := by
      have := List.getLast?_eq_getLast Q hne
      rw [this] at hl
      exact Option.some.inj hl
    rw [this]
    exact List.mem_append_right _ (List.mem_singleton.mpr rfl)
  obtain ⟨A, B, hAB, hA⟩ := first_split hmem
  have hAne : A ≠ [] := by
    intro hAnil
    rw [hAnil] at hAB
    rw [hAB] at hh
    simp only [List.nil_append, List.head?_cons, Option.some.injEq] at hh
    exact hse hh.symm
  refine ⟨A, ?_, ?_, hA, hAne, ?_⟩
  · rw [head_append_left hAne, ← head_append_left (B := e :: B) hAne, ← hAB]
    exact hh
  · have : isPathB g ((A ++ [e]) ++ B) = true := by
      rw [List.append_assoc, List.singleton_append, ← hAB]
      exact hp
    exact isPathB_append_left _ B this (by simp)
  · rw [hAB]
    simp [List.length_append]

theorem append_eq_self_of_length {A R : List Vertex} {T : List Vertex}
    (h : A ++ T = R) (hlen : A.length = R.length) : A = R := by
  have : T = [] := by
    have h2 := congrArg List.length h
    rw [List.length_append] at h2
    have : T.length = 0 := by omega
    exact List.length_eq_zero.mp this
  rw [← h, this, List.append_nil]

/-! ### Claim C2: expansion and invariants -/

theorem extendPaths_inl_spec {e : Vertex} {p : List Vertex} :
    ∀ {nbrs : NbrList} {pushes : List (List Vertex)},
    extendPaths e p nbrs = .inl pushes →
    (∀ q ∈ pushes, ∃ nw ∈ nbrs, q = p ++ [nw.1]) ∧
    (∀ nw ∈ nbrs, nw.1 ≠ e ∧ p ++ [nw.1] ∈ pushes) := by
  intro nbrs
  induction nbrs with
  | nil =>
    intro pushes h
    rw [extendPaths] at h
    cases h
    exact ⟨fun q hq => absurd hq (List.not_mem_nil q),
      fun nw hnw => absurd hnw (List.not_mem_nil nw)⟩
  | cons nw0 rest ih =>
    intro pushes h
    obtain ⟨n, w⟩ := nw0
    rw [extendPaths] at h
    by_cases hn : n = e
    · rw [if_pos hn] at h
      exact absurd h (by simp)
    · rw [if_neg hn] at h
      cases hrec : extendPaths e p rest with
      | inr r =>
        rw [hrec] at h
        exact absurd h (by simp)
      | inl l =>
        rw [hrec] at h
        dsimp only at h
        cases h
        obtain ⟨h1, h2⟩ := ih hrec
        constructor
        · intro q hq
          rcases List.mem_cons.mp hq with rfl | hq'
          · exact ⟨(n, w), List.mem_cons_self _ _, rfl⟩
          · obtain ⟨nw, hnw, he⟩ := h1 q hq'
            exact ⟨nw, List.mem_cons_of_mem _ hnw, he⟩
        · intro nw hnw
          rcases List.mem_cons.mp hnw with rfl | hnw'
          · exact ⟨hn, List.mem_cons_self _ _⟩
          · obtain ⟨ha, hb⟩ := h2 nw hnw'
            exact ⟨ha, List.mem_cons_of_mem _ hb⟩

theorem extendPaths_inr_spec {e : Vertex} {p : List Vertex} :
    ∀ {nbrs : NbrList} {r : List Vertex},
    extendPaths e p nbrs = .inr r →
    (∃ nw ∈ nbrs, nw.1 = e) ∧ r = p ++ [e] := by
  intro nbrs
  induction nbrs with
  | nil =>
    intro r h
    rw [extendPaths] at h
    exact absurd h (by simp)
  | cons nw0 rest ih =>
    intro r h
    obtain ⟨n, w⟩ := nw0
    rw [extendPaths] at h
    by_cases hn : n = e
    · rw [if_pos hn] at h
      cases h
      subst hn
      exact ⟨⟨(n, w), List.mem_cons_self _ _, rfl⟩, rfl⟩
    · rw [if_neg hn] at h
      cases hrec : extendPaths e p rest with
      | inl l =>
        rw [hrec] at h
        exact absurd h (by simp)
      | inr r' =>
        rw [hrec] at h
        dsimp only at h
        cases h
        obtain ⟨⟨nw, hnw, he⟩, hr⟩ := ih hrec
        exact ⟨⟨nw, List.mem_cons_of_mem _ hnw, he⟩, hr⟩

/-- The frontier covers every valid path from `s` ending outside
`visited`: some nonempty prefix ends at an unvisited vertex for which the
queue holds a path at most as long. -/
def CoverD3 (g : Graph) (s : Vertex) (visited : List Vertex)
    (queue : List (List Vertex)) : Prop :=
  ∀ R : List Vertex, R.head? = some s → isPathB g R = true →
    ∀ w, R.getLast? = some w → w ∉ visited →
    ∃ P q, (∃ T, P ++ T = R) ∧ P ≠ [] ∧ q ∈ queue ∧
      (∃ x, P.getLast? = some x ∧ x ∉ visited ∧ q.getLast? = some x) ∧
      q.length ≤ P.length

/-- Every unvisited neighbor of a visited vertex has a queue
representative no longer than one hop past any valid path to the visited
vertex. -/
def CoverN (g : Graph) (s : Vertex) (visited : List Vertex)
    (queue : List (List Vertex)) : Prop :=
  ∀ u ∈ visited, ∀ l, alGet g.adjacentList u = some l →
    ∀ nw ∈ l, nw.1 ∉ visited →
    ∃ q ∈ queue, q.getLast? = some nw.1 ∧
      ∀ T, T.head? = some s → isPathB g T = true → T.getLast? = some u →
        q.length ≤ T.length + 1

/-- The full invariant of the `bfs_shortest_path` loop state. -/
structure QInv (g : Graph) (s e : Vertex) (visited : List Vertex)
    (queue : List (List Vertex)) : Prop where
  paths : ∀ p ∈ queue, p.head? = some s ∧ isPathB g p = true
  sorted : List.Pairwise (fun p q : List Vertex => p.length ≤ q.length) queue
  spread : ∀ p ∈ queue, ∀ q ∈ queue, p.length ≤ q.length + 1
  lastNe : ∀ p ∈ queue, p.getLast? ≠ some e
  eVis : e ∉ visited
  endKeys : ∀ p ∈ queue, ∃ v, p.getLast? = some v ∧ v ∈ keysOf g
  cover : CoverD3 g s visited queue
  nbr : CoverN g s visited queue

/-- The front path of the queue is a shortest valid path to any unvisited
endpoint: a direct consequence of the cover invariant plus sortedness. -/
theorem frontMin {g : Graph} {s : Vertex} {visited : List Vertex}
    {p : List Vertex} {rest : List (List Vertex)}
    (hcov : CoverD3 g s visited (p :: rest))
    (hsort : List.Pairwise (fun p q : List Vertex => p.length ≤ q.length)
      (p :: rest)) :
    ∀ T, T.head? = some s → isPathB g T = true →
    ∀ x, T.getLast? = some x → x ∉ visited → p.length ≤ T.length := by
  intro T hh hp x hl hx
  obtain ⟨P, q, ⟨T', hPT⟩, hPne, hq, ⟨y, hy1, hy2, hy3⟩, hlen⟩ :=
    hcov T hh hp x hl hx
  have hPlen : P.length ≤ T.length := by
    rw [← hPT, List.length_append]
    omega
  have hpq : p.length ≤ q.length := by
    rcases List.mem_cons.mp hq with rfl | hq'
    · exact le_refl _
    · exact (List.pairwise_cons.mp hsort).1 q hq'
  omega

/-- One unfolding of the `bfs_shortest_path` loop on a nonempty queue,
with the dequeued path's last vertex resolved. -/
theorem bfsSPLoop_cons_eq {g : Graph} {e : Vertex} {visited : List Vertex}
    {p : List Vertex} {rest : List (List Vertex)} {v : Vertex}
    (hlast : p.getLast? = some v) :
    bfsSPLoop g e visited (p :: rest) =
      if v ∈ visited then bfsSPLoop g e visited rest
      else
        match alGet g.adjacentList v with
        | none => .error .keyError
        | some nbrs =>
          match extendPaths e p nbrs with
          | .inr found => .ok (some found)
          | .inl pushes => bfsSPLoop g e (visited ++ [v]) (rest ++ pushes) := by
  rw [bfsSPLoop]
  split
  · rename_i heq
    exact absurd (hlast.symm.trans heq) (by simp)
  · rename_i v2 heq
    have hv2 : v = v2 := Option.some.inj (hlast.symm.trans heq)
    cases hv2
    by_cases hv : v ∈ visited
    · rw [dif_pos hv, if_pos hv]
    · rw [dif_neg hv, if_neg hv]
      cases halget : alGet g.adjacentList v with
      | none => rfl
      | some nbrs => dsimp only

/-- One unfolding of the `dfs_shortest_path` loop on a nonempty stack. -/
theorem dfsSPLoop_cons_eq {g : Graph} {e : Vertex} {visited : List Vertex}
    {p : List Vertex} {rest : List (List Vertex)} {v : Vertex}
    (hlast : p.getLast? = some v) :
    dfsSPLoop g e visited (p :: rest) =
      if v ∈ visited then dfsSPLoop g e visited rest
      else
        match alGet g.adjacentList v with
        | none => .error .keyError
        | some nbrs =>
          match extendPaths e p nbrs with
          | .inr found => .ok (some found)
          | .inl pushes =>
            dfsSPLoop g e (visited ++ [v]) (pushes.reverse ++ rest) := by
  rw [dfsSPLoop]
  split
  · rename_i heq
    exact absurd (hlast.symm.trans heq) (by simp)
  · rename_i v2 heq
    have hv2 : v = v2 := Option.some.inj (hlast.symm.trans heq)
    cases hv2
    by_cases hv : v ∈ visited
    · rw [dif_pos hv, if_pos hv]
    · rw [dif_neg hv, if_neg hv]
      cases halget : alGet g.adjacentList v with
      | none => rfl
      | some nbrs => dsimp only

/-- The skipping walk behind the preservation of the cover invariant:
continue along a valid path past vertices of `visited ++ [v]` until an
unvisited vertex appears; the new queue `rest ++ pushes` covers it. -/
theorem walkCover {g : Graph} {s e : Vertex}
    {visited : List Vertex} {p : List Vertex} {rest : List (List Vertex)}
    {v : Vertex} {nbrs : NbrList} {pushes : List (List Vertex)}
    (hpv : p.getLast? = some v) (hv : v ∉ visited)
    (hget : alGet g.adjacentList v = some nbrs)
    (hpush : extendPaths e p nbrs = .inl pushes)
    (hcov : CoverD3 g s visited (p :: rest))
    (hsort : List.Pairwise (fun p q : List Vertex => p.length ≤ q.length)
      (p :: rest))
    (hnbr : CoverN g s visited (p :: rest)) :
    ∀ (T P₀ : List Vertex) (u : Vertex),
      P₀ ≠ [] → P₀.head? = some s → isPathB g (P₀ ++ T) = true →
      P₀.getLast? = some u → (u ∈ visited ∨ u = v) →
      (∀ w', (P₀ ++ T).getLast? = some w' → w' ∉ visited ∧ w' ≠ v) →
      ∃ P q, (∃ T', P ++ T' = P₀ ++ T) ∧ P ≠ [] ∧ q ∈ rest ++ pushes ∧
        (∃ x, P.getLast? = some x ∧ (x ∉ visited ∧ x ≠ v) ∧
          q.getLast? = some x) ∧
        q.length ≤ P.length := by
  intro T
  induction T with
  | nil =>
    intro P₀ u hP0 hh hp hlu hu hw
    rw [List.append_nil] at hw
    obtain ⟨hw1, hw2⟩ := hw u hlu
    rcases hu with hu | hu
    · exact absurd hu hw1
    · exact absurd hu hw2
  | cons n T' ih =>
    intro P₀ u hP0 hh hp hlu hu hw
    have hedge : edgeB g u n = true := isPathB_mid_edge P₀ u n T' hp hlu
    have hassoc : (P₀ ++ [n]) ++ T' = P₀ ++ n :: T' := by
      rw [List.append_assoc]
      rfl
    by_cases hn : n ∈ visited ∨ n = v
    · have hp' : isPathB g ((P₀ ++ [n]) ++ T') = true := by
        rw [hassoc]
        exact hp
      have hw' : ∀ w', ((P₀ ++ [n]) ++ T').getLast? = some w' →
          w' ∉ visited ∧ w' ≠ v := by
        intro w' hw'
        rw [hassoc] at hw'
        exact hw w' hw'
      obtain ⟨P, q, ⟨T'', hPT⟩, hPne, hq, hx, hlen⟩ :=
        ih (P₀ ++ [n]) n (by simp) (by rw [head_append_left hP0]; exact hh)
          hp' (List.getLast?_concat P₀) hn hw'
      refine ⟨P, q, ⟨T'', ?_⟩, hPne, hq, hx, hlen⟩
      rw [hPT, hassoc]
    · rw [not_or] at hn
      obtain ⟨hn1, hn2⟩ := hn
      have hplen : (P₀ ++ [n]).getLast? = some n := List.getLast?_concat P₀
      rcases hu with hu | hu
      · obtain ⟨l', w', hget', hmem'⟩ := edgeB_elim hedge
        obtain ⟨q'', hq'', hql, hbound⟩ :=
          hnbr u hu l' hget' (n, w') hmem' hn1
        have hqne : q'' ≠ p := by
          intro hqp
          rw [hqp, hpv] at hql
          exact hn2 (Option.some.inj hql).symm
        have hqrest : q'' ∈ rest := by
          rcases List.mem_cons.mp hq'' with h | h
          · exact absurd h hqne
          · exact h
        refine ⟨P₀ ++ [n], q'', ⟨T', hassoc⟩, by simp, List.mem_append_left _ hqrest,
          ⟨n, hplen, ⟨hn1, hn2⟩, hql⟩, ?_⟩
        have hP0valid : isPathB g P₀ = true :=
          isPathB_append_left P₀ (n :: T') hp hP0
        have := hbound P₀ hh hP0valid hlu
        rw [List.length_append]
        simpa using this
      · subst hu
        obtain ⟨l'', w'', hget'', hmem''⟩ := edgeB_elim hedge
        have hl : l'' = nbrs := Option.some.inj (hget''.symm.trans hget)
        subst hl
        have hmemp : p ++ [n] ∈ pushes :=
          ((extendPaths_inl_spec hpush).2 (n, w'') hmem'').2
        refine ⟨P₀ ++ [n], p ++ [n], ⟨T', hassoc⟩, by simp,
          List.mem_append_right _ hmemp,
          ⟨n, hplen, ⟨hn1, hn2⟩, List.getLast?_concat p⟩, ?_⟩
        have hP0valid : isPathB g P₀ = true :=
          isPathB_append_left P₀ (n :: T') hp hP0
        have hfront := frontMin hcov hsort P₀ hh hP0valid u hlu hv
        rw [List.length_append, List.length_append]
        simpa using hfront

/-- Preservation of the loop invariant across one expansion step. -/
theorem QInv_expand {g : Graph} {s e : Vertex} (hwf : WF g)
    {visited : List Vertex} {p : List Vertex} {rest : List (List Vertex)}
    {v : Vertex} {nbrs : NbrList} {pushes : List (List Vertex)}
    (hinv : QInv g s e visited (p :: rest))
    (hpv : p.getLast? = some v) (hv : v ∉ visited)
    (hget : alGet g.adjacentList v = some nbrs)
    (hpush : extendPaths e p nbrs = .inl pushes) :
    QInv g s e (visited ++ [v]) (rest ++ pushes) := by
  have hpmem : p ∈ p :: rest := List.mem_cons_self _ _
  have hpne : p ≠ [] := by
    intro hnil
    rw [hnil] at hpv
    simp at hpv
  have hphead : p.head? = some s := (hinv.paths p hpmem).1
  have hppath : isPathB g p = true := (hinv.paths p hpmem).2
  have hspec := extendPaths_inl_spec hpush
  have hpushShape : ∀ q ∈ pushes, ∃ nw, (nw ∈ nbrs ∧ nw.1 ≠ e) ∧ q = p ++ [nw.1] := by
    intro q hq
    obtain ⟨nw, hnw, heq⟩ := hspec.1 q hq
    exact ⟨nw, ⟨hnw, (hspec.2 nw hnw).1⟩, heq⟩
  have hpushLen : ∀ q ∈ pushes, q.length = p.length + 1 := by
    intro q hq
    obtain ⟨nw, _, heq⟩ := hpushShape q hq
    rw [heq, List.length_append]
    rfl
  have hvne : v ≠ e := by
    intro hh
    exact hinv.lastNe p hpmem (hh ▸ hpv)
  have hrestSorted := (List.pairwise_cons.mp hinv.sorted).2
  have hfrontLe := (List.pairwise_cons.mp hinv.sorted).1
  refine ⟨?_, ?_, ?_, ?_, ?_, ?_, ?_, ?_⟩
  · intro q hq
    rcases List.mem_append.mp hq with hq' | hq'
    · exact hinv.paths q (List.mem_cons_of_mem _ hq')
    · obtain ⟨nw, ⟨hnw, _⟩, heq⟩ := hpushShape q hq'
      subst heq
      refine ⟨by rw [head_append_left hpne]; exact hphead, ?_⟩
      exact isPathB_snoc hppath hpv (edgeB_intro hget hnw)
  · rw [List.pairwise_append]
    refine ⟨hrestSorted, ?_, ?_⟩
    · refine List.pairwise_of_forall_mem_list ?_
      intro a ha b hb
      rw [hpushLen a ha, hpushLen b hb]
    · intro a ha b hb
      rw [hpushLen b hb]
      have := hinv.spread a (List.mem_cons_of_mem _ ha) p hpmem
      omega
  · intro a ha b hb
    rcases List.mem_append.mp ha with ha' | ha' <;>
      rcases List.mem_append.mp hb with hb' | hb'
    · exact hinv.spread a (List.mem_cons_of_mem _ ha') b
        (List.mem_cons_of_mem _ hb')
    · rw [hpushLen b hb']
      have := hinv.spread a (List.mem_cons_of_mem _ ha') p hpmem
      omega
    · rw [hpushLen a ha']
      have := hfrontLe b hb'
      omega
    · rw [hpushLen a ha', hpushLen b hb']
      omega
  · intro q hq
    rcases List.mem_append.mp hq with hq' | hq'
    · exact hinv.lastNe q (List.mem_cons_of_mem _ hq')
    · obtain ⟨nw, ⟨_, hne⟩, heq⟩ := hpushShape q hq'
      subst heq
      rw [List.getLast?_concat]
      intro hh
      exact hne (Option.some.inj hh)
  · intro hmem
    rcases List.mem_append.mp hmem with h | h
    · exact hinv.eVis h
    · exact hvne (List.mem_singleton.mp h).symm
  · intro q hq
    rcases List.mem_append.mp hq with hq' | hq'
    · exact hinv.endKeys q (List.mem_cons_of_mem _ hq')
    · obtain ⟨nw, ⟨hnw, _⟩, heq⟩ := hpushShape q hq'
      subst heq
      refine ⟨nw.1, List.getLast?_concat p, ?_⟩
      exact edgeB_target_mem_keys hwf (edgeB_intro hget hnw)
  · intro R hh hp w hl hwv
    have hwv' : w ∉ visited ∧ w ≠ v := by
      constructor
      · intro hmem
        exact hwv (List.mem_append_left _ hmem)
      · intro heq
        exact hwv (List.mem_append_right _ (heq ▸ List.mem_singleton.mpr rfl))
    obtain ⟨P, q, ⟨T, hPT⟩, hPne, hq, ⟨x, hx1, hx2, hx3⟩, hlen⟩ :=
      hinv.cover R hh hp w hl hwv'.1
    by_cases hxv : x = v
    · have hPhead : P.head? = some s := by
        rw [← head_append_left (B := T) hPne, hPT]
        exact hh
      have hPpathT : isPathB g (P ++ T) = true := by
        rw [hPT]
        exact hp
      have hwcond : ∀ w', (P ++ T).getLast? = some w' →
          w' ∉ visited ∧ w' ≠ v := by
        intro w' hw'
        rw [hPT] at hw'
        have : w' = w := by
          rw [hl] at hw'
          exact (Option.some.inj hw').symm
        subst this
        exact hwv'
      obtain ⟨P', q', ⟨T'', hPT'⟩, hPne', hq', ⟨x', hx1', hx2', hx3'⟩, hlen'⟩ :=
        walkCover hpv hv hget hpush hinv.cover hinv.sorted hinv.nbr
          T P x hPne hPhead hPpathT hx1 (Or.inr hxv) hwcond
      refine ⟨P', q', ⟨T'', by rw [hPT', hPT]⟩, hPne', hq',
        ⟨x', hx1', ?_, hx3'⟩, hlen'⟩
      intro hmem
      rcases List.mem_append.mp hmem with h | h
      · exact hx2'.1 h
      · exact hx2'.2 (List.mem_singleton.mp h)
    · have hqne : q ≠ p := by
        intro hqp
        rw [hqp, hpv] at hx3
        exact hxv (Option.some.inj hx3).symm
      have hqrest : q ∈ rest := by
        rcases List.mem_cons.mp hq with h | h
        · exact absurd h hqne
        · exact h
      refine ⟨P, q, ⟨T, hPT⟩, hPne, List.mem_append_left _ hqrest,
        ⟨x, hx1, ?_, hx3⟩, hlen⟩
      intro hmem
      rcases List.mem_append.mp hmem with h | h
      · exact hx2 h
      · exact hxv (List.mem_singleton.mp h)
  · intro u hu l hgetu nw hnw hnwv
    have hnw1 : nw.1 ∉ visited ∧ nw.1 ≠ v := by
      constructor
      · intro hmem
        exact hnwv (List.mem_append_left _ hmem)
      · intro heq
        exact hnwv (List.mem_append_right _ (heq ▸ List.mem_singleton.mpr rfl))
    rcases List.mem_append.mp hu with hu' | hu'
    · obtain ⟨q'', hq'', hql, hbound⟩ := hinv.nbr u hu' l hgetu nw hnw hnw1.1
      have hqne : q'' ≠ p := by
        intro hqp
        rw [hqp, hpv] at hql
        exact hnw1.2 (Option.some.inj hql).symm
      have hqrest : q'' ∈ rest := by
        rcases List.mem_cons.mp hq'' with h | h
        · exact absurd h hqne
        · exact h
      exact ⟨q'', List.mem_append_left _ hqrest, hql, hbound⟩
    · have huv : u = v := List.mem_singleton.mp hu'
      subst huv
      have hl : l = nbrs := Option.some.inj (hgetu.symm.trans hget)
      subst hl
      refine ⟨p ++ [nw.1], List.mem_append_right _ ((hspec.2 nw hnw).2),
        List.getLast?_concat p, ?_⟩
      intro T hTh hTp hTl
      have := frontMin hinv.cover hinv.sorted T hTh hTp u hTl hv
      rw [List.length_append]
      simpa using this

/-- Total correctness of the `bfs_shortest_path` loop under the
invariant: no exception, `none` exactly when no valid `s`→`e` path
exists, and a returned path is a valid `s`→`e` path of minimum length. -/
theorem bfsSPLoop_correct {g : Graph} {s e : Vertex} (hwf : WF g)
    (hse : s ≠ e) :
    ∀ (visited : List Vertex) (queue : List (List Vertex)),
    QInv g s e visited queue →
    (∀ err, bfsSPLoop g e visited queue ≠ .error err) ∧
    (bfsSPLoop g e visited queue = .ok none →
      ∀ Q, Q.head? = some s → Q.getLast? = some e → isPathB g Q = true →
        False) ∧
    (∀ P, bfsSPLoop g e visited queue = .ok (some P) →
      P.head? = some s ∧ P.getLast? = some e ∧ isPathB g P = true ∧
      ∀ Q, Q.head? = some s → Q.getLast? = some e → isPathB g Q = true →
        P.length ≤ Q.length) := by
  intro visited queue
  induction visited, queue using bfsSPLoop.induct (g := g) (e := e) with
  | case1 visited =>
    intro hinv
    rw [bfsSPLoop]
    refine ⟨by simp, ?_, by simp⟩
    intro _ Q hh hl hp
    obtain ⟨P, q, _, _, hq, _, _⟩ := hinv.cover Q hh hp e hl hinv.eVis
    exact absurd hq (List.not_mem_nil q)
  | case2 visited p rest hlast =>
    intro hinv
    have hpne : p ≠ [] := by
      intro hnil
      have := (hinv.paths p (List.mem_cons_self _ _)).1
      rw [hnil] at this
      simp at this
    obtain ⟨x, hx⟩ := getLast_of_ne_nil hpne
    exact absurd (hx.symm.trans hlast) (by simp)
  | case3 visited p rest v hlast hvv ih =>
    intro hinv
    have hinv' : QInv g s e visited rest := by
      refine ⟨fun q hq => hinv.paths q (List.mem_cons_of_mem _ hq),
        (List.pairwise_cons.mp hinv.sorted).2,
        fun a ha b hb => hinv.spread a (List.mem_cons_of_mem _ ha) b
          (List.mem_cons_of_mem _ hb),
        fun q hq => hinv.lastNe q (List.mem_cons_of_mem _ hq),
        hinv.eVis,
        fun q hq => hinv.endKeys q (List.mem_cons_of_mem _ hq), ?_, ?_⟩
      · intro R hh hp w hl hwv
        obtain ⟨P, q, hPT, hPne, hq, ⟨x, hx1, hx2, hx3⟩, hlen⟩ :=
          hinv.cover R hh hp w hl hwv
        have hqne : q ≠ p := by
          intro hqp
          rw [hqp, hlast] at hx3
          exact hx2 ((Option.some.inj hx3).symm ▸ hvv)
        have hqrest : q ∈ rest := by
          rcases List.mem_cons.mp hq with h | h
          · exact absurd h hqne
          · exact h
        exact ⟨P, q, hPT, hPne, hqrest, ⟨x, hx1, hx2, hx3⟩, hlen⟩
      · intro u hu l hgetu nw hnw hnwv
        obtain ⟨q'', hq'', hql, hbound⟩ := hinv.nbr u hu l hgetu nw hnw hnwv
        have hqne : q'' ≠ p := by
          intro hqp
          rw [hqp, hlast] at hql
          exact hnwv ((Option.some.inj hql).symm ▸ hvv)
        have hqrest : q'' ∈ rest := by
          rcases List.mem_cons.mp hq'' with h | h
          · exact absurd h hqne
          · exact h
        exact ⟨q'', hqrest, hql, hbound⟩
    rw [bfsSPLoop_cons_eq hlast, if_pos hvv]
    exact ih hinv'
  | case4 visited p rest v hlast hvv hget =>
    intro hinv
    obtain ⟨x, hx, hxk⟩ := hinv.endKeys p (List.mem_cons_self _ _)
    have hxv : x = v := Option.some.inj (hx.symm.trans hlast)
    subst hxv
    exact absurd (alGet_none_iff.mp hget) (fun hh => hh hxk)
  | case5 visited p rest v hlast hvv nbrs hget found hext =>
    intro hinv
    have heq : bfsSPLoop g e visited (p :: rest) = .ok (some found) := by
      rw [bfsSPLoop_cons_eq hlast, if_neg hvv, hget]
      dsimp only
      rw [hext]
    obtain ⟨⟨nw, hnwmem, hnw1⟩, hfound⟩ := extendPaths_inr_spec hext
    have hpne : p ≠ [] := by
      intro hnil
      rw [hnil] at hlast
      simp at hlast
    have hsound : found.head? = some s ∧ found.getLast? = some e ∧
        isPathB g found = true := by
      subst hfound
      have hh1 : (p ++ [e]).head? = some s := by
        rw [head_append_left hpne]
        exact (hinv.paths p (List.mem_cons_self _ _)).1
      refine ⟨hh1, List.getLast?_concat p, ?_⟩
      refine isPathB_snoc (hinv.paths p (List.mem_cons_self _ _)).2 hlast ?_
      have : nw = (e, nw.2) := by
        rw [← hnw1]
      rw [this] at hnwmem
      exact edgeB_intro hget hnwmem
    have hmin : ∀ Q, Q.head? = some s → Q.getLast? = some e →
        isPathB g Q = true → found.length ≤ Q.length := by
      intro Q hh hl hp
      obtain ⟨Q₁, hQh, hQp, hQe, hQne, hQlen⟩ := firstHit hse hh hl hp
      obtain ⟨P, q, ⟨T, hPT⟩, hPne, hq, ⟨x, hx1, hx2, hx3⟩, hlen⟩ :=
        hinv.cover (Q₁ ++ [e]) hQh hQp e (List.getLast?_concat Q₁) hinv.eVis
      have hxe : x ≠ e := by
        intro hh2
        exact hinv.lastNe q hq (hh2 ▸ hx3)
      have hPlt : P.length < (Q₁ ++ [e]).length := by
        rcases Nat.lt_or_ge P.length (Q₁ ++ [e]).length with h | h
        · exact h
        · have hPeq : P.length = (Q₁ ++ [e]).length := by
            have : P.length ≤ (Q₁ ++ [e]).length := by
              rw [← hPT, List.length_append]
              omega
            omega
          have := append_eq_self_of_length hPT hPeq
          subst this
          rw [List.getLast?_concat] at hx1
          exact absurd (Option.some.inj hx1).symm hxe
      have hpq : p.length ≤ q.length := by
        rcases List.mem_cons.mp hq with rfl | hq'
        · exact le_refl _
        · exact (List.pairwise_cons.mp hinv.sorted).1 q hq'
      have hfl : found.length = p.length + 1 := by
        rw [hfound, List.length_append]
        rfl
      omega
    refine ⟨?_, ?_, ?_⟩
    · intro err
      rw [heq]
      simp
    · intro hnone
      rw [heq] at hnone
      exact absurd hnone (by simp)
    · intro P hP
      rw [heq] at hP
      have : found = P := by
        cases hP
        rfl
      subst this
      exact ⟨hsound.1, hsound.2.1, hsound.2.2, hmin⟩
  | case6 visited p rest v hlast hvv nbrs hget pushes hext ih =>
    intro hinv
    rw [bfsSPLoop_cons_eq hlast, if_neg hvv, hget]
    dsimp only
    rw [hext]
    exact ih (QInv_expand hwf hinv hlast hvv hget hext)

/-- Any path returned by the `dfs_shortest_path` loop is a valid
`s`→`e` path (the stack only ever holds valid paths from `s`). -/
theorem dfsSPLoop_paths {g : Graph} {s e : Vertex} :
    ∀ (visited : List Vertex) (stack : List (List Vertex)),
    (∀ p ∈ stack, p.head? = some s ∧ isPathB g p = true ∧
      ∃ x, p.getLast? = some x) →
    ∀ q, dfsSPLoop g e visited stack = .ok (some q) →
    q.head? = some s ∧ q.getLast? = some e ∧ isPathB g q = true := by
  intro visited stack
  induction visited, stack using dfsSPLoop.induct (g := g) (e := e) with
  | case1 visited =>
    intro _ q hq
    rw [dfsSPLoop] at hq
    exact absurd hq (by simp)
  | case2 visited p rest hlast =>
    intro hstack q hq
    obtain ⟨x, hx⟩ := (hstack p (List.mem_cons_self _ _)).2.2
    exact absurd (hx.symm.trans hlast) (by simp)
  | case3 visited p rest v hlast hvv ih =>
    intro hstack q hq
    rw [dfsSPLoop_cons_eq hlast, if_pos hvv] at hq
    exact ih (fun p hp => hstack p (List.mem_cons_of_mem _ hp)) q hq
  | case4 visited p rest v hlast hvv hget =>
    intro hstack q hq
    rw [dfsSPLoop_cons_eq hlast, if_neg hvv, hget] at hq
    exact absurd hq (by simp)
  | case5 visited p rest v hlast hvv nbrs hget found hext =>
    intro hstack q hq
    rw [dfsSPLoop_cons_eq hlast, if_neg hvv, hget] at hq
    dsimp only at hq
    rw [hext] at hq
    dsimp only at hq
    cases hq
    obtain ⟨⟨nw, hnwmem, hnw1⟩, hfound⟩ := extendPaths_inr_spec hext
    have hpne : p ≠ [] := by
      intro hnil
      rw [hnil] at hlast
      simp at hlast
    subst hfound
    have hh1 : (p ++ [e]).head? = some s := by
      rw [head_append_left hpne]
      exact (hstack p (List.mem_cons_self _ _)).1
    refine ⟨hh1, List.getLast?_concat p, ?_⟩
    refine isPathB_snoc (hstack p (List.mem_cons_self _ _)).2.1 hlast ?_
    have : nw = (e, nw.2) := by
      rw [← hnw1]
    rw [this] at hnwmem
    exact edgeB_intro hget hnwmem
  | case6 visited p rest v hlast hvv nbrs hget pushes hext ih =>
    intro hstack q hq
    rw [dfsSPLoop_cons_eq hlast, if_neg hvv, hget] at hq
    dsimp only at hq
    rw [hext] at hq
    dsimp only at hq
    refine ih ?_ q hq
    intro q' hq'
    rcases List.mem_append.mp hq' with hq'' | hq''
    · obtain ⟨nw, hnw, heq⟩ :=
        (extendPaths_inl_spec hext).1 q' (List.mem_reverse.mp hq'')
      subst heq
      have hpne : p ≠ [] := by
        intro hnil
        rw [hnil] at hlast
        simp at hlast
      have hh1 : (p ++ [nw.1]).head? = some s := by
        rw [head_append_left hpne]
        exact (hstack p (List.mem_cons_self _ _)).1
      refine ⟨hh1, ?_, nw.1, List.getLast?_concat p⟩
      exact isPathB_snoc (hstack p (List.mem_cons_self _ _)).2.1 hlast
        (edgeB_intro hget hnw)
    · exact hstack q' (List.mem_cons_of_mem _ hq'')

/-- The invariant holds at the initial state `visited = []`,
`queue = [[start]]`. -/
theorem QInv_init {g : Graph} {s e : Vertex} (hs : s ∈ keysOf g)
    (hse : s ≠ e) : QInv g s e [] [[s]] := by
  refine ⟨?_, ?_, ?_, ?_, List.not_mem_nil e, ?_, ?_, ?_⟩
  · intro p hp
    rcases List.mem_singleton.mp hp with rfl
    exact ⟨rfl, rfl⟩
  · exact List.pairwise_singleton _ _
  · intro p hp q hq
    rcases List.mem_singleton.mp hp with rfl
    rcases List.mem_singleton.mp hq with rfl
    omega
  · intro p hp
    rcases List.mem_singleton.mp hp with rfl
    rw [List.getLast?_singleton]
    intro hh
    exact hse (Option.some.inj hh)
  · intro p hp
    rcases List.mem_singleton.mp hp with rfl
    exact ⟨s, List.getLast?_singleton s, hs⟩
  · intro R hh hp w hl hwv
    refine ⟨[s], [s], ⟨R.tail, (head_some_eq_cons hh).symm⟩, by simp,
      List.mem_singleton.mpr rfl,
      ⟨s, List.getLast?_singleton s, List.not_mem_nil s,
        List.getLast?_singleton s⟩, le_refl _⟩
  · intro u hu
    exact absurd hu (List.not_mem_nil u)

/-- C2 (counterexample): with `start = end` the search never returns the
trivial zero-edge path: on the single-vertex graph `bfs_shortest_path(1,
1)` returns `None` although the path `[1]` exists. -/
theorem claim_C2_cex :
    PathFrom exV1 1 [1] 1 ∧ exV1.bfs_shortest_path 1 1 = .ok none := by
  refine ⟨⟨rfl, rfl, rfl⟩, ?_⟩
  show bfsSPLoop exV1 1 [] [[1]] = .ok none
  rw [@bfsSPLoop_cons_eq exV1 1 [] [1] [] 1 rfl]
  rw [if_neg (List.not_mem_nil 1)]
  rw [show alGet exV1.adjacentList 1 = some [] from rfl]
  dsimp only
  show bfsSPLoop exV1 1 [1] [] = .ok none
  rw [bfsSPLoop]

/-- C2 (amended): on a well-formed graph with known `start` and
`start ≠ end`: if some `start`→`end` path exists, `bfs_shortest_path`
returns a path with the minimum number of edges — in particular at most
as many as any path returned by `dfs_shortest_path` — and if no path
exists it returns an absent result.  (With `start = end` the trivial
path is never returned: the search yields `None` or a nonempty cycle.) -/
theorem claim_C2 (g : Graph) (s e : Vertex) (hwf : WF g)
    (hs : s ∈ g.getVertices) (hse : s ≠ e) :
    ((∃ Q, PathFrom g s Q e) →
      ∃ P, g.bfs_shortest_path s e = .ok (some P) ∧ PathFrom g s P e ∧
        (∀ Q, PathFrom g s Q e → P.length ≤ Q.length) ∧
        (∀ q, g.dfs_shortest_path s e = .ok (some q) →
          P.length ≤ q.length)) ∧
    ((¬∃ Q, PathFrom g s Q e) → g.bfs_shortest_path s e = .ok none) := by
  have hcor := bfsSPLoop_correct hwf hse [] [[s]] (QInv_init hs hse)
  constructor
  · rintro ⟨Q, hQ⟩
    cases hres : bfsSPLoop g e [] [[s]] with
    | error err => exact absurd hres (by intro hh; exact hcor.1 err hh)
    | ok opt =>
      cases opt with
      | none => exact (hcor.2.1 hres Q hQ.1 hQ.2.1 hQ.2.2).elim
      | some P =>
        obtain ⟨h1, h2, h3, h4⟩ := hcor.2.2 P hres
        refine ⟨P, hres, ⟨h1, h2, h3⟩,
          fun Q' hQ' => h4 Q' hQ'.1 hQ'.2.1 hQ'.2.2, ?_⟩
        intro q hq
        have hstack : ∀ p ∈ [[s]], p.head? = some s ∧ isPathB g p = true ∧
            ∃ x, p.getLast? = some x := by
          intro p hp
          rcases List.mem_singleton.mp hp with rfl
          exact ⟨rfl, rfl, s, List.getLast?_singleton s⟩
        have hqvalid := @dfsSPLoop_paths g s e [] [[s]] hstack q hq
        exact h4 q hqvalid.1 hqvalid.2.1 hqvalid.2.2
  · intro hne
    cases hres : bfsSPLoop g e [] [[s]] with
    | error err => exact absurd hres (by intro hh; exact hcor.1 err hh)
    | ok opt =>
      cases opt with
      | none => exact hres
      | some P =>
        obtain ⟨h1, h2, h3, _⟩ := hcor.2.2 P hres
        exact absurd ⟨P, h1, h2, h3⟩ hne

/-- C2 (witness): the amended claim on the chain `1→2→3`. -/
theorem claim_C2_witness :
    WF exChain ∧ (1 : Vertex) ∈ exChain.getVertices ∧ (1 : Vertex) ≠ 3 ∧
    ∃ P, exChain.bfs_shortest_path 1 3 = .ok (some P) ∧
      PathFrom exChain 1 P 3 ∧
      (∀ Q, PathFrom exChain 1 Q 3 → P.length ≤ Q.length) ∧
      (∀ q, exChain.dfs_shortest_path 1 3 = .ok (some q) →
        P.length ≤ q.length) := by
  refine ⟨by decide, by decide, by decide, ?_⟩
  exact (claim_C2 exChain 1 3 (by decide) (by decide) (by decide)).1
    ⟨[1, 2, 3], by decide, by decide, by decide⟩

end AGMA

